import Mathlib

/-!
Verification development for mbw, the memory bandwidth benchmark (src/mbw.c).

A shallow embedding of the parts of `mbw.c` that the specification talks about:

* the polling protocol between the Controller and the Worker processes over the shared
  `procmap` byte array (`main`, lines 443-488 and 575-596, 628);
* the block-copy pattern of `worker` (lines 137-149);
* the Worker's execution loop and the Controller's aggregation (lines 490-572, 598-627);
* `parse_cpu_affinity_str` and the configuration checks of `main` (lines 200-246, 283-394);
* the driver `mbw-gen` that prints `mbw` command lines (src/mbw-gen.c).

Conventions of the embedding.

* `procmap` is a `volatile char` array; it is modelled as a map from slot index to the
  (signed) value of the byte. Only the values 0..6 and -1 are ever stored. Every access to it
  is one atomic step, and all processes see the same memory.
* C `int` values inside `parse_cpu_affinity_str` are integers up to `INT_MAX`, and the pin
  table `cpu_pinno` has `PROCMAP_SIZE` entries: an overflow, or a write beyond the table, has
  no defined result. The conversions `int x = strtoul(..)` of `main` wrap explicitly.
* `double` values are modelled by exact rationals, and a value that is not finite by `none`.
-/

namespace Mbw

/-! ## Constants of mbw.c -/

/-- `#define PROCMAP_SIZE 4096`. -/
def PROCMAP_SIZE : Nat := 4096

/-- `#define DEFAULT_NR_LOOPS 10`. -/
def DEFAULT_NR_LOOPS : Nat := 10

/-- `#define MAX_TESTS 3`. -/
def MAX_TESTS : Nat := 3

/-- `#define DEFAULT_BLOCK_SIZE 262144`. -/
def DEFAULT_BLOCK_SIZE : Nat := 262144

/-- `#define TEST_MEMCPY 0`. -/
def TEST_MEMCPY : Nat := 0

/-- `#define TEST_DUMB 1`. -/
def TEST_DUMB : Nat := 1

/-- `#define TEST_MCBLOCK 2`. -/
def TEST_MCBLOCK : Nat := 2

/-! ## The synchronisation protocol over `procmap` -/

/-- Program points of the Controller branch of `main` (`procno <= 0`, lines 443-573).
The index carried by a loop point is the current value of the loop variable `i`. -/
inductive CtrlPc
  /-- Line 450: `for (i = 1; i <= nr_procs; i++) procmap[i] = 1;` -/
  | syncWrite (i : Nat)
  /-- Line 452: `for (i = 1; i <= nr_procs; i++) while (procmap[i] == 1);` -/
  | syncPoll (i : Nat)
  /-- Line 461: `for (i = 1; i <= nr_procs; i++) procmap[i] = 3;` -/
  | allocWrite (i : Nat)
  /-- Line 465: `while (procmap[i] == 3);` inside the loop of line 463. -/
  | allocPoll (i : Nat)
  /-- Line 467: `if (procmap[i] < 0)` inside the loop of line 463. -/
  | allocCheck (i : Nat)
  /-- Line 480: `for (i = 1; i <= nr_procs; i++) procmap[i] = 5;` -/
  | runWrite (i : Nat)
  /-- Line 483: `return 0` taken when `nr_loops` is zero. -/
  | returnedForever
  /-- Line 484: `for (i = 1; i <= nr_procs; i++) while (procmap[i] == 5);` -/
  | runPoll (i : Nat)
  /-- Lines 487-572: the run timer has been stopped, the statistics are computed and printed. -/
  | report
  /-- Line 632: `return 0` after the report. -/
  | done
  /-- Lines 469-471: `MYMEMSET(procmap, -1, PROCMAP_SIZE); ... exit(1);` has been executed. -/
  | abort
  deriving DecidableEq, Repr

/-- Program points of the Worker branch of `main` (lines 575-630). -/
inductive WorkPc
  /-- Line 580: `while (procmap[procno] == 0);` -/
  | waitStart
  /-- Line 582: `if (procmap[procno] < 0) exit(1);` -/
  | checkStart
  /-- Line 585: `procmap[procno] = 2;` -/
  | ackSync
  /-- Line 586: `while (procmap[procno] == 2);` -/
  | waitAlloc
  /-- Line 588: `if (procmap[procno] < 0) exit(1);` -/
  | checkAlloc
  /-- Lines 590-591: `a = make_array(asize); b = make_array(asize);` -/
  | alloc
  /-- Line 592: `procmap[procno] = 4;` -/
  | ackAlloc
  /-- Line 593: `while (procmap[procno] == 4);` -/
  | waitRun
  /-- Line 595: `if (procmap[procno] < 0) exit(1);` -/
  | checkRun
  /-- Lines 598-627: the measured workload. -/
  | run
  /-- Line 628: `procmap[procno] = 6;` -/
  | ackRun
  /-- Line 629: `exit(0)`. -/
  | exit0
  /-- One of the `exit(1)` of lines 103, 583, 589, 596. -/
  | exit1
  deriving DecidableEq, Repr

/-- What the protocol depends on: the worker count, the loop count, and which workers
cannot obtain their buffers (`calloc` returning `NULL` inside `make_array`). -/
structure ProtoCfg where
  nr_procs : Nat
  nr_loops : Nat
  allocFails : Nat → Bool

/-- The shared slot array together with the program point of every process. -/
structure Sys where
  procmap : Nat → Int
  ctrl : CtrlPc
  wk : Nat → WorkPc

/-- Pointwise update of a map at one index. -/
def setAt {α : Type} (f : Nat → α) (k : Nat) (v : α) : Nat → α :=
  fun j => if j = k then v else f j

/-- After the forks: `procmap` is zero-filled (line 413), the Controller enters its first loop,
every Worker is at its first poll. -/
def Sys.init : Sys :=
  { procmap := fun _ => 0, ctrl := CtrlPc.syncWrite 1, wk := fun _ => WorkPc.waitStart }

/-- One step of Worker `k` (one access to `procmap[procno]`, or one local action), on the
value `v` of its slot and its program point. Returns the new slot value and program point. -/
def workerStep (cfg : ProtoCfg) (k : Nat) (v : Int) : WorkPc → Int × WorkPc
  | WorkPc.waitStart => if v = 0 then (v, WorkPc.waitStart) else (v, WorkPc.checkStart)
  | WorkPc.checkStart => if v < 0 then (v, WorkPc.exit1) else (v, WorkPc.ackSync)
  | WorkPc.ackSync => (2, WorkPc.waitAlloc)
  | WorkPc.waitAlloc => if v = 2 then (v, WorkPc.waitAlloc) else (v, WorkPc.checkAlloc)
  | WorkPc.checkAlloc => if v < 0 then (v, WorkPc.exit1) else (v, WorkPc.alloc)
  | WorkPc.alloc => if cfg.allocFails k then (v, WorkPc.exit1) else (v, WorkPc.ackAlloc)
  | WorkPc.ackAlloc => (4, WorkPc.waitRun)
  | WorkPc.waitRun => if v = 4 then (v, WorkPc.waitRun) else (v, WorkPc.checkRun)
  | WorkPc.checkRun => if v < 0 then (v, WorkPc.exit1) else (v, WorkPc.run)
  | WorkPc.run => if cfg.nr_loops = 0 then (v, WorkPc.run) else (v, WorkPc.ackRun)
  | WorkPc.ackRun => (6, WorkPc.exit0)
  | WorkPc.exit0 => (v, WorkPc.exit0)
  | WorkPc.exit1 => (v, WorkPc.exit1)

/-- One step of the Controller: one loop test together with the access to `procmap` that
follows it. -/
def ctrlStep (cfg : ProtoCfg) (s : Sys) : Sys :=
  match s.ctrl with
  | CtrlPc.syncWrite i =>
    if i ≤ cfg.nr_procs then
      { s with procmap := setAt s.procmap i 1, ctrl := CtrlPc.syncWrite (i + 1) }
    else { s with ctrl := CtrlPc.syncPoll 1 }
  | CtrlPc.syncPoll i =>
    if i ≤ cfg.nr_procs then
      if s.procmap i = 1 then s else { s with ctrl := CtrlPc.syncPoll (i + 1) }
    else { s with ctrl := CtrlPc.allocWrite 1 }
  | CtrlPc.allocWrite i =>
    if i ≤ cfg.nr_procs then
      { s with procmap := setAt s.procmap i 3, ctrl := CtrlPc.allocWrite (i + 1) }
    else { s with ctrl := CtrlPc.allocPoll 1 }
  | CtrlPc.allocPoll i =>
    if i ≤ cfg.nr_procs then
      if s.procmap i = 3 then s else { s with ctrl := CtrlPc.allocCheck i }
    else { s with ctrl := CtrlPc.runWrite 1 }
  | CtrlPc.allocCheck i =>
    if s.procmap i < 0 then { s with procmap := fun _ => -1, ctrl := CtrlPc.abort }
    else { s with ctrl := CtrlPc.allocPoll (i + 1) }
  | CtrlPc.runWrite i =>
    if i ≤ cfg.nr_procs then
      { s with procmap := setAt s.procmap i 5, ctrl := CtrlPc.runWrite (i + 1) }
    else if cfg.nr_loops = 0 then { s with ctrl := CtrlPc.returnedForever }
    else { s with ctrl := CtrlPc.runPoll 1 }
  | CtrlPc.returnedForever => s
  | CtrlPc.runPoll i =>
    if i ≤ cfg.nr_procs then
      if s.procmap i = 5 then s else { s with ctrl := CtrlPc.runPoll (i + 1) }
    else { s with ctrl := CtrlPc.report }
  | CtrlPc.report => { s with ctrl := CtrlPc.done }
  | CtrlPc.done => s
  | CtrlPc.abort => s

/-- One step of the whole system: process `0` is the Controller, process `k` with
`1 <= k <= nr_procs` is Worker `k`; any other identifier names no process. -/
def step (cfg : ProtoCfg) (s : Sys) (who : Nat) : Sys :=
  if who = 0 then ctrlStep cfg s
  else if who ≤ cfg.nr_procs then
    { s with
      procmap := setAt s.procmap who (workerStep cfg who (s.procmap who) (s.wk who)).1,
      wk := setAt s.wk who (workerStep cfg who (s.procmap who) (s.wk who)).2 }
  else s

/-- The state reached from the initial state under an interleaving, given as the list of the
processes that take the successive steps. -/
def runSched (cfg : ProtoCfg) (sched : List Nat) : Sys :=
  sched.foldl (step cfg) Sys.init

/-- The exit status of the Controller at a program point, when it has terminated. -/
def ctrlExit : CtrlPc → Option Nat
  | CtrlPc.done => some 0
  | CtrlPc.returnedForever => some 0
  | CtrlPc.abort => some 1
  | _ => none

/-- The Worker has written `SYNC_ACK` (it is past line 585). -/
def ackedSync : WorkPc → Bool
  | WorkPc.waitStart | WorkPc.checkStart | WorkPc.ackSync | WorkPc.exit1 => false
  | _ => true

/-- The Worker has begun to allocate (it is past the check of line 588). -/
def startedAlloc : WorkPc → Bool
  | WorkPc.waitStart | WorkPc.checkStart | WorkPc.ackSync | WorkPc.waitAlloc
  | WorkPc.checkAlloc | WorkPc.exit1 => false
  | _ => true

/-- The Worker has written `ALLOC_ACK` (it is past line 592). -/
def ackedAlloc : WorkPc → Bool
  | WorkPc.waitRun | WorkPc.checkRun | WorkPc.run | WorkPc.ackRun | WorkPc.exit0 => true
  | _ => false

/-- The Worker has begun the measured workload (it is past the check of line 595). -/
def startedRun : WorkPc → Bool
  | WorkPc.run | WorkPc.ackRun | WorkPc.exit0 => true
  | _ => false

/-! ## The protocol invariant -/

/-- Where Worker `k` and its slot can be, relative to the progress of the Controller. -/
inductive Stage
  /-- Slot untouched. -/
  | z
  /-- `SYNC_REQUESTED` written, the acknowledgement may be there or not. -/
  | a1
  /-- `SYNC_ACK` seen by the Controller. -/
  | d2
  /-- `ALLOC_REQUESTED` written, the acknowledgement may be there or not. -/
  | a3
  /-- `ALLOC_ACK` seen by the Controller. -/
  | d4
  /-- `RUN_REQUESTED` written, the acknowledgement may be there or not. -/
  | a5
  /-- `RUN_DONE` seen by the Controller. -/
  | d6
  /-- No such state. -/
  | bad
  deriving DecidableEq

/-- The stage of slot `k` when the Controller is at a given program point. -/
def expect : CtrlPc → Nat → Stage
  | CtrlPc.syncWrite i, k => if k < i then Stage.a1 else Stage.z
  | CtrlPc.syncPoll i, k => if k < i then Stage.d2 else Stage.a1
  | CtrlPc.allocWrite i, k => if k < i then Stage.a3 else Stage.d2
  | CtrlPc.allocPoll i, k => if k < i then Stage.d4 else Stage.a3
  | CtrlPc.allocCheck i, k => if k ≤ i then Stage.d4 else Stage.a3
  | CtrlPc.runWrite i, k => if k < i then Stage.a5 else Stage.d4
  | CtrlPc.returnedForever, _ => Stage.a5
  | CtrlPc.runPoll i, k => if k < i then Stage.d6 else Stage.a5
  | CtrlPc.report, _ => Stage.d6
  | CtrlPc.done, _ => Stage.d6
  | CtrlPc.abort, _ => Stage.bad

/-- The slot values and Worker program points allowed at a stage; `f` tells whether the
Worker fails to allocate. -/
def okAt (f : Bool) : Stage → Int → WorkPc → Prop
  | Stage.z, v, w => v = 0 ∧ w = WorkPc.waitStart
  | Stage.a1, v, w =>
    (v = 1 ∧ (w = WorkPc.waitStart ∨ w = WorkPc.checkStart ∨ w = WorkPc.ackSync)) ∨
      (v = 2 ∧ w = WorkPc.waitAlloc)
  | Stage.d2, v, w => v = 2 ∧ w = WorkPc.waitAlloc
  | Stage.a3, v, w =>
    (v = 3 ∧ (w = WorkPc.waitAlloc ∨ w = WorkPc.checkAlloc ∨ w = WorkPc.alloc ∨
        (w = WorkPc.ackAlloc ∧ f = false) ∨ (w = WorkPc.exit1 ∧ f = true))) ∨
      (v = 4 ∧ w = WorkPc.waitRun ∧ f = false)
  | Stage.d4, v, w => v = 4 ∧ w = WorkPc.waitRun ∧ f = false
  | Stage.a5, v, w =>
    f = false ∧ ((v = 5 ∧ (w = WorkPc.waitRun ∨ w = WorkPc.checkRun ∨ w = WorkPc.run ∨
        w = WorkPc.ackRun)) ∨ (v = 6 ∧ w = WorkPc.exit0))
  | Stage.d6, v, w => v = 6 ∧ w = WorkPc.exit0 ∧ f = false
  | Stage.bad, _, _ => False

/-- The invariant of the protocol: every slot `1..nr_procs` is at the stage the Controller's
program point prescribes, and the index of the check of line 467 is a real slot. -/
def Inv (cfg : ProtoCfg) (s : Sys) : Prop :=
  (∀ k, 1 ≤ k → k ≤ cfg.nr_procs →
      okAt (cfg.allocFails k) (expect s.ctrl k) (s.procmap k) (s.wk k)) ∧
    (∀ i, s.ctrl = CtrlPc.allocCheck i → 1 ≤ i ∧ i ≤ cfg.nr_procs) ∧
    (∀ i, s.ctrl = CtrlPc.allocPoll i → 1 ≤ i)

/-- The stages in the order in which a slot goes through them. -/
def Stage.rank : Stage → Nat
  | Stage.z => 0
  | Stage.a1 => 1
  | Stage.d2 => 2
  | Stage.a3 => 3
  | Stage.d4 => 4
  | Stage.a5 => 5
  | Stage.d6 => 6
  | Stage.bad => 7

/-- A two-worker configuration without failures, used to exercise the protocol. -/
def cfgTwo : ProtoCfg := { nr_procs := 2, nr_loops := 1, allocFails := fun _ => false }

/-- An interleaving that brings the Controller of `cfgTwo` to its first `ALLOC_REQUESTED`
write. -/
def schedTwo : List Nat := [0, 0, 0, 1, 1, 1, 2, 2, 2, 0, 0, 0]

/-- One worker whose allocation fails. -/
def cfgFail : ProtoCfg := { nr_procs := 1, nr_loops := 10, allocFails := fun _ => true }

/-- An interleaving in which the Worker of `cfgFail` reaches `make_array` and fails. -/
def schedFail : List Nat := [0, 0, 1, 1, 1, 0, 0, 0, 0, 1, 1, 1, 0, 0, 0]

/-! ## The copy patterns of `worker` (lines 133-149)

Buffers are lists of bytes; a pointer into a buffer is an offset. -/

/-- `mempcpy(bb, aa, n)` of glibc: copies `n` bytes from offset `aa` of the source `a` to
offset `bb` of the destination `b`. The value is the destination buffer afterwards; the pointer
the C function returns is `bb + n`. -/
def mempcpy {α : Type} (b : List α) (bb : Nat) (a : List α) (aa n : Nat) : List α :=
  b.take bb ++ (a.drop aa).take n ++ b.drop (bb + n)

/-- Line 135, the plain-copy pattern: `memcpy(b, a, array_bytes)`. -/
def plainCopy {α : Type} (array_bytes : Nat) (a b : List α) : List α :=
  mempcpy b 0 a 0 array_bytes

/-- Lines 141-144, the loop
`for (t = array_bytes; t >= block_size; t -= block_size, aa += block_size)
   bb = mempcpy(bb, aa, block_size);`
run from the loop state `(t, aa, bb)` and destination contents `b`, for at most `fuel`
evaluations of the loop test. The result is the state at loop exit, `none` when the
fuel does not suffice. -/
def blockLoop {α : Type} (block_size : Nat) (a : List α) :
    Nat → Nat → Nat → Nat → List α → Option (Nat × Nat × Nat × List α)
  | 0, _, _, _, _ => none
  | fuel + 1, t, aa, bb, b =>
    if block_size ≤ t then
      blockLoop block_size a fuel (t - block_size) (aa + block_size) (bb + block_size)
        (mempcpy b bb a aa block_size)
    else some (t, aa, bb, b)

/-- Lines 139-148, one pass of the block-copy pattern: the loop, then
`if (t) bb = mempcpy(bb, aa, t);`. -/
def blockCopy {α : Type} (fuel array_bytes block_size : Nat) (a b : List α) : Option (List α) :=
  match blockLoop block_size a fuel array_bytes 0 0 b with
  | none => none
  | some (t, aa, bb, b1) => some (if t ≠ 0 then mempcpy b1 bb a aa t else b1)

/-! ## The Result Store, the Worker's execution loop and the Controller's aggregation

`mpresults[i]` is a table of `double`, indexed by loop index `j` (`0..nr_loops`) and test
number. A `double` is modelled by an exact rational; where a division is involved, a value that
is not finite (the quotient by `0.0`, an infinity or a NaN, and anything computed from it) is
`none`. -/

/-- The Result Store of one worker, `mpresults[i][j][testno]` as a map `j, testno ↦ value`. -/
abbrev Store := Nat → Nat → ℚ

/-- Assignment `results[j][testno] = x`. -/
def Store.set (r : Store) (j testno : Nat) (x : ℚ) : Store :=
  fun j1 t1 => if j1 = j ∧ t1 = testno then x else r j1 t1

/-- A freshly mapped anonymous region (line 421) is zero-filled. -/
def Store.zero : Store := fun _ _ => 0

/-- What the execution loop and the aggregation read of the configuration. `elapsed` is not part
of the configuration of `mbw`: it stands for the value `worker(...)` returns (the measured
time) at trial `i` of test `testno`. -/
structure RunCfg where
  nr_procs : Nat
  nr_loops : Nat
  nr_repeats : Int
  mt : ℚ
  tests : Nat → Bool

/-- Lines 607-619, the loop
`for (i = 0; nr_loops == 0 || i < nr_loops; i++) { te = worker(..); te_sum += te; ..
   if (nr_loops) results[i + 1][testno] = te; }`
from the loop state `(i, te_sum, results)`, for at most `fuel` evaluations of the loop test. -/
def trialLoop (nr_loops : Nat) (elapsed : Nat → ℚ) (testno : Nat) :
    Nat → Nat → ℚ → Store → Option (ℚ × Store)
  | 0, _, _, _ => none
  | fuel + 1, i, te_sum, results =>
    if nr_loops = 0 ∨ i < nr_loops then
      trialLoop nr_loops elapsed testno fuel (i + 1) (te_sum + elapsed i)
        (if nr_loops ≠ 0 then results.set (i + 1) testno (elapsed i) else results)
    else some (te_sum, results)

/-- Lines 604-626, the body of the loop over `testno`: `te_sum = 0; if (tests[testno]) { .. ;
results[0][testno] = te_sum / nr_loops; }`. -/
def runTest (cfg : RunCfg) (elapsed : Nat → Nat → ℚ) (fuel : Nat) (results : Store)
    (testno : Nat) : Option Store :=
  if cfg.tests testno then
    match trialLoop cfg.nr_loops (elapsed testno) testno fuel 0 0 results with
    | none => none
    | some (te_sum, r) => some (r.set 0 testno (te_sum / (cfg.nr_loops : ℚ)))
  else some results

/-- Lines 602-627: `for (testno = 0; testno < MAX_TESTS; testno++) ..`, starting from the
zero-filled Result Store. -/
def executionLoop (cfg : RunCfg) (elapsed : Nat → Nat → ℚ) (fuel : Nat) : Option Store :=
  (List.range MAX_TESTS).foldlM (runTest cfg elapsed fuel) Store.zero

/-- Sum of two `double`s, not finite when one of them is not. -/
def addD : Option ℚ → Option ℚ → Option ℚ
  | some x, some y => some (x + y)
  | _, _ => none

/-- Product of two `double`s, not finite when one of them is not. -/
def mulD : Option ℚ → Option ℚ → Option ℚ
  | some x, some y => some (x * y)
  | _, _ => none

/-- Line 512: `double speed = mt * nr_repeats / mpresults[i][j][testno];`. A cell that holds
`0.0` gives an infinity or a NaN. -/
def speed (cfg : RunCfg) (mp : Store) (j testno : Nat) : Option ℚ :=
  if mp j testno = 0 then none else some (cfg.mt * (cfg.nr_repeats : ℚ) / mp j testno)

/-- Lines 508-519: the accumulation of `speedsum[i - 1][testno]` and
`speedsqsum[i - 1][testno]` over `j = 0..nr_loops`, skipping `j = 0`. -/
def speedSums (cfg : RunCfg) (mp : Store) (testno : Nat) : Option ℚ × Option ℚ :=
  (List.range (cfg.nr_loops + 1)).foldl
    (fun acc j =>
      if j ≠ 0 then
        (addD acc.1 (speed cfg mp j testno),
          addD acc.2 (mulD (speed cfg mp j testno) (speed cfg mp j testno)))
      else acc)
    (some 0, some 0)

/-- Lines 495-503: the accumulation
`worker_run_time += mpresults[i][0][testno] * nr_loops` over `testno < MAX_TESTS`. -/
def worker_run_time (cfg : RunCfg) (mp : Store) : ℚ :=
  (List.range MAX_TESTS).foldl (fun acc testno => acc + mp 0 testno * (cfg.nr_loops : ℚ)) 0

/-- Line 522: `idletime[i - 1] = total_run_time - worker_run_time;`. -/
def idletime (cfg : RunCfg) (total_run_time : ℚ) (mp : Store) : ℚ :=
  total_run_time - worker_run_time cfg mp

/-- What the loop body of lines 493-524 prints and stores for one worker. -/
structure WorkerReport where
  /-- Lines 497-505: per test number, the row `mpresults[i][j][testno]`, `j = 0..nr_loops`. -/
  times : List (List ℚ)
  /-- Lines 506-521: per test number, the row of speeds, `j = 0..nr_loops`. -/
  speeds : List (List (Option ℚ))
  /-- `speedsum[i - 1][testno]` per test number. -/
  speedsum : List (Option ℚ)
  /-- `speedsqsum[i - 1][testno]` per test number. -/
  speedsqsum : List (Option ℚ)
  /-- `idletime[i - 1]`. -/
  idle : ℚ

/-- Lines 493-524 for one worker with Result Store `mp`. -/
def aggregateWorker (cfg : RunCfg) (total_run_time : ℚ) (mp : Store) : WorkerReport :=
  { times := (List.range MAX_TESTS).map fun testno =>
      (List.range (cfg.nr_loops + 1)).map fun j => mp j testno
    speeds := (List.range MAX_TESTS).map fun testno =>
      (List.range (cfg.nr_loops + 1)).map fun j => speed cfg mp j testno
    speedsum := (List.range MAX_TESTS).map fun testno => (speedSums cfg mp testno).1
    speedsqsum := (List.range MAX_TESTS).map fun testno => (speedSums cfg mp testno).2
    idle := idletime cfg total_run_time mp }

/-- Lines 556-561: `sum += speedsum[i][testno]; sumsq += speedsqsum[i][testno];` over
`i = 0..nr_procs-1`; row `i` of `speedsum` was computed from `mpresults[i + 1]`. The first
component is the figure line 563 prints under `Total speed:`. -/
def totalSpeed (cfg : RunCfg) (mpresults : Nat → Store) (testno : Nat) : Option ℚ × Option ℚ :=
  (List.range cfg.nr_procs).foldl
    (fun acc i =>
      (addD acc.1 (speedSums cfg (mpresults (i + 1)) testno).1,
        addD acc.2 (speedSums cfg (mpresults (i + 1)) testno).2))
    (some 0, some 0)

/-- Line 562, the argument of `sqrt` in the global standard deviation (taken when
`nr_procs > 1`). -/
def totalVariance (cfg : RunCfg) (mpresults : Nat → Store) (testno : Nat) : Option ℚ :=
  match totalSpeed cfg mpresults testno with
  | (some sum, some sumsq) =>
    some ((sumsq - sum * sum / ((cfg.nr_loops * cfg.nr_procs : Nat) : ℚ)) /
      ((cfg.nr_procs : ℚ) - 1))
  | _ => none

/-- What the Controller computes and prints after the run (lines 490-572). -/
structure Report where
  /-- One entry per worker `1..nr_procs`. -/
  workers : List WorkerReport
  /-- Per test number, the printed total and the accumulated sum of squares. -/
  totals : List (Option ℚ × Option ℚ)
  /-- Line 572. -/
  total_run_time : ℚ

/-- Lines 490-572. -/
def aggregate (cfg : RunCfg) (total_run_time : ℚ) (mpresults : Nat → Store) : Report :=
  { workers := (List.range cfg.nr_procs).map fun i =>
      aggregateWorker cfg total_run_time (mpresults (i + 1))
    totals := (List.range MAX_TESTS).map fun testno => totalSpeed cfg mpresults testno
    total_run_time := total_run_time }

/-- The exact quotient (payload size x repeat count) / elapsed time of loop `j`, the speed of
that loop when the elapsed time is not zero. -/
def loopSpeed (cfg : RunCfg) (mp : Store) (j testno : Nat) : ℚ :=
  cfg.mt * (cfg.nr_repeats : ℚ) / mp j testno

/-- The arithmetic mean of the per-loop speeds of one test over all workers `i + 1` in
`1..nr_procs` and loops `j + 1` in `1..nr_loops`. -/
def meanSpeed (cfg : RunCfg) (mpresults : Nat → Store) (testno : Nat) : ℚ :=
  (∑ i in Finset.range cfg.nr_procs, ∑ j in Finset.range cfg.nr_loops,
      loopSpeed cfg (mpresults (i + 1)) (j + 1) testno) / ((cfg.nr_procs * cfg.nr_loops : Nat) : ℚ)

/-- The Result Store after the trials of one enabled test: rows `i+1..nr_loops` of column
`testno` hold the elapsed times, the other cells are unchanged. -/
def trialsDone (nr_loops : Nat) (elapsed : Nat → ℚ) (testno i : Nat) (r : Store) : Store :=
  fun j t1 => if t1 = testno ∧ i < j ∧ j ≤ nr_loops then elapsed (j - 1) else r j t1

/-- The Result Store a Worker leaves behind, cell by cell: for an enabled test, row 0 holds
the sum of the elapsed times divided by `nr_loops` and row `j` in `1..nr_loops` holds the
elapsed time of trial `j - 1`; every other cell is zero. -/
def writtenStore (cfg : RunCfg) (elapsed : Nat → Nat → ℚ) : Store :=
  fun j t =>
    if t < MAX_TESTS ∧ cfg.tests t = true then
      if j = 0 then (∑ k in Finset.range cfg.nr_loops, elapsed t k) / (cfg.nr_loops : ℚ)
      else if j ≤ cfg.nr_loops then elapsed t (j - 1)
      else 0
    else 0

/-- The enabled test numbers. -/
def enabledTests (cfg : RunCfg) : Finset Nat :=
  (Finset.range MAX_TESTS).filter fun t => cfg.tests t = true

/-- One worker, two loops, one repeat, one MiB. -/
def cfgOneTwo : RunCfg :=
  { nr_procs := 1, nr_loops := 2, nr_repeats := 1, mt := 1, tests := fun _ => true }

/-- Every trial of every test takes one second. -/
def storeOnes : Nat → Store := fun _ _ _ => 1

/-- Two workers, one loop, one repeat, one MiB, all tests enabled. -/
def cfgTwoOne : RunCfg :=
  { nr_procs := 2, nr_loops := 1, nr_repeats := 1, mt := 1, tests := fun _ => true }

/-- The Result Stores of the workers of `cfgTwoOne` when every trial takes one second. -/
def storesTwoOne : Nat → Store := fun _ => writtenStore cfgTwoOne (fun _ _ => 1)

/-- One worker, one loop, only the plain-copy test enabled. -/
def cfgPlain : RunCfg :=
  { nr_procs := 1, nr_loops := 1, nr_repeats := 1, mt := 1, tests := fun t => decide (t = 0) }

/-- A Result Store whose cells of test 0 hold one second and whose cells of the disabled
tests hold `x`. -/
def storeWith (x : ℚ) : Nat → Store := fun _ _ t => if t = 0 then 1 else x

/-- Two Result Stores agree on every cell of an enabled test type that the aggregator can
address: workers `1..nr_procs`, loops `0..nr_loops`. -/
def agreeOnEnabled (cfg : RunCfg) (m1 m2 : Nat → Store) : Prop :=
  ∀ i j t, 1 ≤ i → i ≤ cfg.nr_procs → j ≤ cfg.nr_loops → t < MAX_TESTS → cfg.tests t = true →
    m1 i j t = m2 i j t

/-- The largest `int`. -/
def INT_MAX : Int := 2147483647

/-- Lines 208-212: `while (isdigit(*p)) { t = t * 10 + (*p - '0'); p++; }`. The value is
`none` when `t * 10 + (*p - '0')` exceeds `INT_MAX` (signed overflow). -/
def readDigits : Int → List Char → Option (Int × List Char)
  | t, [] => some (t, [])
  | t, c :: p =>
    if c.isDigit then
      if t * 10 + ((c.toNat : Int) - ('0'.toNat : Int)) ≤ INT_MAX then
        readDigits (t * 10 + ((c.toNat : Int) - ('0'.toNat : Int))) p
      else none
    else some (t, c :: p)

/-- Lines 232-233: `for (int i = start; i <= end; i += inc) *(++pcpu_pinno) = i;` from the loop
state `i`, for at most `fuel` evaluations of the loop test that succeed. The value is `none`
when a pin is written beyond slot `PROCMAP_SIZE - 1` of the table, or when `i + inc` exceeds
`INT_MAX`. -/
def pinLoop (end_ inc : Int) : Nat → Int → List Int → Option (List Int)
  | 0, _, pins => some pins
  | fuel + 1, i, pins =>
    if i ≤ end_ then
      if pins.length + 1 < PROCMAP_SIZE ∧ i + inc ≤ INT_MAX then
        pinLoop end_ inc fuel (i + inc) (pins ++ [i])
      else none
    else some pins

/-- Lines 232-233 with `inc = (step >= 1 ? step : 1)`. As the increment is at least 1, the
loop test fails after at most `end + 1 - start` iterations. -/
def writePins (start end_ step : Int) (pins : List Int) : Option (List Int) :=
  pinLoop end_ (if step ≥ 1 then step else 1) (end_ + 1 - start).toNat start pins

/-- Lines 215-229: the number `t` goes to `start`, then to `end`, then `end` moves to `step`
and `t` goes to `end`; a fourth number makes the function return -1 (`none`). -/
def assignNumber (start end_ step t : Int) : Option (Int × Int × Int) :=
  if start = -1 then some (t, end_, step)
  else if end_ = -1 then some (start, t, step)
  else if step = -1 then some (start, t, end_)
  else none

/-- Lines 205-244, the loop `while (*p) { .. }` from the loop state, followed by the `return`
of line 245; at most `fuel` evaluations of the loop test. The value is the pin list and the
returned `int`; `none` when the call has no defined result (a pin beyond the table, an `int`
overflow), or when the fuel does not suffice. -/
def parseLoop : Nat → List Char → Int → Int → Int → List Int → Option (List Int × Int)
  | 0, _, _, _, _, _ => none
  | _ + 1, [], _, _, _, pins => some (pins, (pins.length : Int))
  | fuel + 1, c :: cs, start, end_, step, pins =>
    match readDigits 0 (c :: cs) with
    | none => none
    | some (t, []) =>
      match assignNumber start end_ step t with
      | none => some (pins, -1)
      | some (s1, e1, st1) =>
        match writePins s1 e1 st1 pins with
        | none => none
        | some pins1 => some (pins1, (pins1.length : Int))
    | some (t, d :: p1) =>
      if d = ':' then
        match assignNumber start end_ step t with
        | none => some (pins, -1)
        | some (s1, e1, st1) => parseLoop fuel p1 s1 e1 st1 pins
      else if d = ',' then
        match assignNumber start end_ step t with
        | none => some (pins, -1)
        | some (s1, e1, st1) =>
          match writePins s1 e1 st1 pins with
          | none => none
          | some pins1 => parseLoop fuel p1 (-1) (-1) (-1) pins1
      else some (pins, -1)

/-- `int parse_cpu_affinity_str(int *cpu_pinno, const char *cpu_pinstr)`: the values written
to `cpu_pinno[1..]` and the returned `int`; `none` when the call has no defined result. The
loop test is evaluated at most once per character and once more, so the fuel always
suffices. -/
def parse_cpu_affinity_str (cpu_pinstr : List Char) : Option (List Int × Int) :=
  parseLoop (cpu_pinstr.length + 1) cpu_pinstr (-1) (-1) (-1) []

/-! ## The part of `main` that precedes the forks (lines 252-394) -/

/-- `sizeof(long)` on the LP64 platforms `mbw` is built for. -/
def long_size : Nat := 8

/-- The conversion of an `unsigned long` to `int` in `int x = strtoul(..)`: the value modulo
`2^32`, read as a two's complement number. -/
def toInt32 (v : Nat) : Int :=
  if v % 2 ^ 32 < 2 ^ 31 then ((v % 2 ^ 32 : Nat) : Int) else ((v % 2 ^ 32 : Nat) : Int) - 2 ^ 32

/-- One option as `getopt` delivers it; a numeric argument is given by the value `strtoul`
(or `strtoull`) returns for it. -/
inductive Opt
  | h
  | a
  | q
  | n (v : Nat)
  | t (v : Nat)
  | b (v : Nat)
  | p (v : Nat)
  | r (v : Nat)
  | f (optarg : List Char)
  /-- Any other return value of `getopt` (`default: break;`). -/
  | other

/-- How the part of `main` before the forks ends: with `exit(code)` or `return code`, by going
on with a value, or with no defined result (a write beyond `cpu_pinno`, an `int` overflow, a
conversion of a `double` that is out of range). -/
inductive Pre (α : Type)
  | exit (code : Nat)
  | ok (val : α)
  | undefined
  deriving DecidableEq

/-- The locals of `main` that the options set (lines 252-275). -/
structure Vars where
  nr_procs : Int
  nr_repeats : Int
  nr_loops : Int
  block_size : Nat
  showavg : Bool
  tests : Nat → Bool
  quiet : Bool
  cpu_pinstr : Option (List Char)

/-- The initial values of lines 252-281. -/
def Vars.init : Vars :=
  { nr_procs := 1, nr_repeats := 3, nr_loops := (DEFAULT_NR_LOOPS : Int),
    block_size := DEFAULT_BLOCK_SIZE, showavg := true, tests := fun _ => false, quiet := false,
    cpu_pinstr := none }

/-- Lines 285-329: the `switch (o)`. -/
def optStep (v : Vars) : Opt → Pre Vars
  | Opt.h => Pre.exit 1
  | Opt.a => Pre.ok { v with showavg := false }
  | Opt.n x => Pre.ok { v with nr_loops := toInt32 x }
  | Opt.t testno =>
    if testno > MAX_TESTS - 1 then Pre.exit 1
    else Pre.ok { v with tests := setAt v.tests testno true }
  | Opt.b x => if x = 0 then Pre.exit 1 else Pre.ok { v with block_size := x }
  | Opt.q => Pre.ok { v with quiet := true }
  | Opt.p x => Pre.ok { v with nr_procs := toInt32 x }
  | Opt.r x => Pre.ok { v with nr_repeats := toInt32 x }
  | Opt.f s => Pre.ok { v with cpu_pinstr := some s }
  | Opt.other => Pre.ok v

/-- Lines 283-330: `while ((o = getopt(..)) != EOF) switch (o) ..`. -/
def getoptLoop : List Opt → Vars → Pre Vars
  | [], v => Pre.ok v
  | o :: os, v =>
    match optStep v o with
    | Pre.ok v1 => getoptLoop os v1
    | Pre.exit c => Pre.exit c
    | Pre.undefined => Pre.undefined

/-- Lines 332-353: without `-f` the pins are `cpu_pinno[i] = i - 1` for `i = 1..nr_procs`,
written without a bound check into `int cpu_pinno[PROCMAP_SIZE]`; with `-f` the string is
parsed and `if (ret != nr_procs) .. return 1;`. The value is the contents of `cpu_pinno[1..]`
that were written. -/
def resolveAffinity (nr_procs : Int) : Option (List Char) → Pre (List Int)
  | none =>
    if nr_procs < (PROCMAP_SIZE : Int) then
      Pre.ok ((List.range nr_procs.toNat).map fun (i : Nat) => (i : Int))
    else Pre.undefined
  | some cpu_pinstr =>
    match parse_cpu_affinity_str cpu_pinstr with
    | none => Pre.undefined
    | some (pins, ret) => if ret ≠ nr_procs then Pre.exit 1 else Pre.ok pins

/-- `tests[0] + tests[1] + tests[2]`. -/
def testsSum (tests : Nat → Bool) : Nat :=
  (tests 0).toNat + (tests 1).toNat + (tests 2).toNat

/-- Lines 355-361: all tests are run when none was requested. -/
def defaultTests (tests : Nat → Bool) : Nat → Bool :=
  if testsSum tests = 0 then setAt (setAt (setAt tests 0 true) 1 true) 2 true else tests

/-- Line 388: `asize = 1024 * 1024 / long_size * mt`, a product of `double`s converted to
`unsigned long long`. The product is exact; the conversion has no defined result (`none`)
when the product does not fit into 64 bits, that is for `mt >= 2^47`. -/
def asizeOf (mt : Nat) : Option Nat :=
  if 1024 * 1024 / long_size * mt < 2 ^ 64 then some (1024 * 1024 / long_size * mt) else none

/-- The array size in bytes, `asize * long_size` in `unsigned long long` arithmetic (lines
128 and 390). -/
def arrayBytes (asize : Nat) : Nat := (asize * long_size) % 2 ^ 64

/-- The configuration with which `main` reaches the forks. -/
structure Config where
  nr_procs : Int
  nr_repeats : Int
  nr_loops : Int
  block_size : Nat
  showavg : Bool
  tests : Nat → Bool
  quiet : Bool
  cpu_pinno : List Int
  mt : Nat
  asize : Nat

/-- Lines 355-394, after the affinity has been resolved to `pins`; `arg` is the value of the
positional argument when there is one (`optind < argc`). -/
def checkConfig (v : Vars) (pins : List Int) (arg : Option Nat) : Pre Config :=
  if v.nr_loops = 0 ∧ testsSum (defaultTests v.tests) ≠ 1 then Pre.exit 1
  else
    match arg with
    | none => Pre.exit 1
    | some mt =>
      if mt = 0 then Pre.exit 1
      else
        match asizeOf mt with
        | none => Pre.undefined
        | some asize =>
          if arrayBytes asize < v.block_size then Pre.exit 1
          else
            Pre.ok
              { nr_procs := v.nr_procs, nr_repeats := v.nr_repeats, nr_loops := v.nr_loops,
                block_size := v.block_size, showavg := v.showavg,
                tests := defaultTests v.tests, quiet := v.quiet, cpu_pinno := pins, mt := mt,
                asize := asize }

/-- Lines 283-394: from the options and the positional argument to the forks. -/
def main_pre (opts : List Opt) (arg : Option Nat) : Pre Config :=
  match getoptLoop opts Vars.init with
  | Pre.exit c => Pre.exit c
  | Pre.undefined => Pre.undefined
  | Pre.ok v =>
    match resolveAffinity v.nr_procs v.cpu_pinstr with
    | Pre.exit c => Pre.exit c
    | Pre.undefined => Pre.undefined
    | Pre.ok pins => checkConfig v pins arg

/-- The enabled test types are exactly one. -/
def exactlyOneTest (tests : Nat → Bool) : Prop :=
  ((Finset.range MAX_TESTS).filter fun t => tests t = true).card = 1

/-- The resolved options violate one of the two conditions on a configuration: `nr_loops` is
zero without exactly one test enabled (after the default), or the block size is zero or
exceeds the array size in bytes. -/
def violates (v : Vars) (arg : Option Nat) : Prop :=
  (v.nr_loops = 0 ∧ ¬ exactlyOneTest (defaultTests v.tests)) ∨ v.block_size = 0 ∨
    ∃ mt asize, arg = some mt ∧ asizeOf mt = some asize ∧ arrayBytes asize < v.block_size

/-! ## The driver `mbw-gen` (src/mbw-gen.c)

The `int` variables of the driver are natural numbers here: with `N >= 1` none of them is
ever negative. -/

/-- `printf("%d", x)`: the decimal digits of `x`, after a minus sign when `x` is negative. -/
def printDec (x : Int) : List Char :=
  if x < 0 then '-' :: Nat.toDigits 10 x.natAbs else Nat.toDigits 10 x.toNat

/-- What one printed command line passes to `mbw`: the number after `-p` and the string after
`-f`. The remaining words of the line are the same for every command:
`-q -n 10 -r 20 1024`, and a redirection to the file `m<nproc>-<step>.txt`. -/
structure Cmd where
  nproc : Nat
  affinity : List Char
  deriving DecidableEq

/-- Lines 8-11, `execute(nproc, step)`: prints
`./mbw -p %d -f 0:%d:%d -q -n 10 -r 20 1024 > m%d-%d.txt ..` with the arguments
`nproc, step, nproc * step - 1, nproc, step`. -/
def execute (nproc step : Nat) : Cmd :=
  { nproc := nproc
    affinity := '0' :: ':' :: (printDec (step : Int) ++
      ':' :: printDec (((nproc * step : Nat) : Int) - 1)) }

/-- The options and the positional argument `mbw` receives from a printed command line. -/
def Cmd.opts (c : Cmd) : List Opt :=
  [Opt.p c.nproc, Opt.f c.affinity, Opt.q, Opt.n 10, Opt.r 20]

/-- The state of the loops of `main`: the commands printed so far, and `map`. -/
abbrev GenState := List Cmd × (Nat → Bool)

/-- Lines 28-33, the body of the first loop over `im`:
`if (N % im) continue; int i = N / im; for (int j = 1; j <= im; j++) execute(i, j);
map[i] = 1;`. -/
def genBody1 (N : Nat) (st : GenState) (im : Nat) : GenState :=
  if N % im ≠ 0 then st
  else (st.1 ++ (List.range im).map (fun j => execute (N / im) (j + 1)), setAt st.2 (N / im) true)

/-- Lines 40-41: `for (int j = 1; j <= im; j *= 2) execute(i, j);` from the loop state `j`, for
at most `fuel` evaluations of the loop test that succeed. -/
def doubleLoop (i im : Nat) : Nat → Nat → List Cmd → List Cmd
  | 0, _, out => out
  | fuel + 1, j, out =>
    if j ≤ im then doubleLoop i im fuel (j * 2) (out ++ [execute i j]) else out

/-- Lines 37-42, the body of the second loop over `im`. As `j` starts at 1 and doubles, the
loop test of the inner loop fails after at most `im` iterations. -/
def genBody2 (N : Nat) (st : GenState) (im : Nat) : GenState :=
  if N % im ≠ 0 then st
  else (doubleLoop (N / im) im im 1 st.1, setAt st.2 (N / im) true)

/-- Lines 47-49, the body of the third loop: `if (map[i]) continue; execute(i, 1);`. -/
def genBody3 (map : Nat → Bool) (out : List Cmd) (i : Nat) : List Cmd :=
  if map i then out else out ++ [execute i 1]

/-- Lines 26-34, the first loop `for (im = 1; im <= sqrt(N); im++) ..` from the loop state
`im`, for at most `fuel` evaluations of the loop test that succeed. The test compares an `int`
with a `double`; for an `int` N it holds exactly when `im * im <= N`. The value is the final
`im` and the state. -/
def genLoop1 (N : Nat) : Nat → Nat → GenState → Nat × GenState
  | 0, im, st => (im, st)
  | fuel + 1, im, st =>
    if im * im ≤ N then genLoop1 N fuel (im + 1) (genBody1 N st im) else (im, st)

/-- Lines 20-51 of `main` of `mbw-gen.c`, for `N >= 1`: the commands printed, in order. The
first loop starts at `im = 1` and its test fails after at most `N` iterations; the second loop,
`for (; im < N; im++) ..`, goes on from the `im` the first loop ended with; the third loop runs
over `i = N, N - 1, .., 1`. -/
def gen_main (N : Nat) : List Cmd :=
  let r1 := genLoop1 N N 1 ([], fun _ => false)
  let s2 := (List.range' r1.1 (N - r1.1)).foldl (genBody2 N) r1.2
  (List.range' 1 N).reverse.foldl (genBody3 s2.2) s2.1

/-- The CPU indices `0, step, .., (nproc - 1) * step`. -/
def stridedPins (nproc step : Nat) : List Int :=
  (List.range nproc).map fun k => ((k * step : Nat) : Int)

/-- A command of the form `-p nproc -f 0:step:(nproc*step-1)` with `nproc >= 1`, `step >= 1` and
`nproc * step <= N`. -/
def emittedForm (N : Nat) (c : Cmd) : Prop :=
  ∃ nproc step, c = execute nproc step ∧ 1 ≤ nproc ∧ 1 ≤ step ∧ nproc * step ≤ N

/-! ## Theorems: the protocol -/

theorem okAt_workerStep (cfg : ProtoCfg) (k : Nat) (st : Stage) (v : Int) (w : WorkPc)
    (h : okAt (cfg.allocFails k) st v w) :
    okAt (cfg.allocFails k) st (workerStep cfg k v w).1 (workerStep cfg k v w).2 := by
  cases st <;> cases w <;> simp [okAt, workerStep] at h ⊢ <;>
    (try split) <;> simp_all

theorem Inv_init (cfg : ProtoCfg) : Inv cfg Sys.init := by
  refine ⟨?_, ?_, ?_⟩
  · intro k h1 _
    have : ¬ k < 1 := by omega
    simp [Sys.init, expect, okAt, this]
  · intro i h
    simp [Sys.init] at h
  · intro i h
    simp [Sys.init] at h

theorem Inv_ctrlStep (cfg : ProtoCfg) (s : Sys) (h : Inv cfg s) : Inv cfg (ctrlStep cfg s) := by
  obtain ⟨hk, hc, hp⟩ := h
  unfold ctrlStep
  cases hs : s.ctrl with
  | syncWrite i =>
    simp only
    split
    · refine ⟨?_, by simp, by simp⟩
      intro k h1 h2
      have := hk k h1 h2
      simp only [hs, expect, setAt] at this ⊢
      by_cases hki : k = i
      · subst hki
        first | omega | simp_all [okAt]
      · split_ifs at this ⊢ <;> first | omega | simp_all [okAt]
    · refine ⟨?_, by simp, by simp⟩
      intro k h1 h2
      have := hk k h1 h2
      simp only [hs, expect, setAt] at this ⊢
      by_cases hki : k = i
      · subst hki
        omega
      · split_ifs at this ⊢ <;> first | omega | simp_all [okAt]
  | syncPoll i =>
    simp only
    split
    · split
      · exact ⟨hk, hc, hp⟩
      · refine ⟨?_, by simp, by simp⟩
        intro k h1 h2
        have := hk k h1 h2
        simp only [hs, expect, setAt] at this ⊢
        by_cases hki : k = i
        · subst hki
          first | omega | simp_all [okAt]
        · split_ifs at this ⊢ <;> first | omega | simp_all [okAt]
    · refine ⟨?_, by simp, by simp⟩
      intro k h1 h2
      have := hk k h1 h2
      simp only [hs, expect, setAt] at this ⊢
      by_cases hki : k = i
      · subst hki
        omega
      · split_ifs at this ⊢ <;> first | omega | simp_all [okAt]
  | allocWrite i =>
    simp only
    split
    · refine ⟨?_, by simp, by simp⟩
      intro k h1 h2
      have := hk k h1 h2
      simp only [hs, expect, setAt] at this ⊢
      by_cases hki : k = i
      · subst hki
        first | omega | simp_all [okAt]
      · split_ifs at this ⊢ <;> first | omega | simp_all [okAt]
    · refine ⟨?_, by simp, by simp⟩
      intro k h1 h2
      have := hk k h1 h2
      simp only [hs, expect, setAt] at this ⊢
      by_cases hki : k = i
      · subst hki
        omega
      · split_ifs at this ⊢ <;> first | omega | simp_all [okAt]
  | allocPoll i =>
    have hi := hp i hs
    simp only
    split
    · split
      · exact ⟨hk, hc, hp⟩
      · refine ⟨?_, ?_, by simp⟩
        · 
          intro k h1 h2
          have := hk k h1 h2
          simp only [hs, expect, setAt] at this ⊢
          by_cases hki : k = i
          · subst hki
            first | omega | simp_all [okAt]
          · split_ifs at this ⊢ <;> first | omega | simp_all [okAt]
        · intro j hj
          simp at hj
          omega
    · refine ⟨?_, by simp, by simp⟩
      intro k h1 h2
      have := hk k h1 h2
      simp only [hs, expect, setAt] at this ⊢
      by_cases hki : k = i
      · subst hki
        omega
      · split_ifs at this ⊢ <;> first | omega | simp_all [okAt]
  | allocCheck i =>
    have hi := hc i hs
    have hii := hk i hi.1 hi.2
    simp only [hs, expect, le_refl, if_true, okAt] at hii
    simp only
    split
    · omega
    · refine ⟨?_, by simp, ?_⟩
      · 
        intro k h1 h2
        have := hk k h1 h2
        simp only [hs, expect, setAt] at this ⊢
        by_cases hki : k = i
        · subst hki
          first | omega | simp_all [okAt]
        · split_ifs at this ⊢ <;> first | omega | simp_all [okAt]
      · intro j hj
        simp at hj
        omega
  | runWrite i =>
    simp only
    split
    · refine ⟨?_, by simp, by simp⟩
      intro k h1 h2
      have := hk k h1 h2
      simp only [hs, expect, setAt] at this ⊢
      by_cases hki : k = i
      · subst hki
        first | omega | simp_all [okAt]
      · split_ifs at this ⊢ <;> first | omega | simp_all [okAt]
    · split
      · refine ⟨?_, by simp, by simp⟩
        intro k h1 h2
        have := hk k h1 h2
        simp only [hs, expect, setAt] at this ⊢
        by_cases hki : k = i
        · subst hki
          omega
        · split_ifs at this ⊢ <;> first | omega | simp_all [okAt]
      · refine ⟨?_, by simp, by simp⟩
        intro k h1 h2
        have := hk k h1 h2
        simp only [hs, expect, setAt] at this ⊢
        by_cases hki : k = i
        · subst hki
          omega
        · split_ifs at this ⊢ <;> first | omega | simp_all [okAt]
  | returnedForever => exact ⟨hk, hc, hp⟩
  | runPoll i =>
    simp only
    split
    · split
      · exact ⟨hk, hc, hp⟩
      · refine ⟨?_, by simp, by simp⟩
        intro k h1 h2
        have := hk k h1 h2
        simp only [hs, expect, setAt] at this ⊢
        by_cases hki : k = i
        · subst hki
          first | omega | simp_all [okAt]
        · split_ifs at this ⊢ <;> first | omega | simp_all [okAt]
    · refine ⟨?_, by simp, by simp⟩
      intro k h1 h2
      have := hk k h1 h2
      simp only [hs, expect, setAt] at this ⊢
      by_cases hki : k = i
      · subst hki
        omega
      · split_ifs at this ⊢ <;> first | omega | simp_all [okAt]
  | report =>
    refine ⟨?_, by simp, by simp⟩
    intro k h1 h2
    have := hk k h1 h2
    simpa [hs, expect] using this
  | done => exact ⟨hk, hc, hp⟩
  | abort => exact ⟨hk, hc, hp⟩

theorem Inv_step (cfg : ProtoCfg) (s : Sys) (who : Nat) (h : Inv cfg s) :
    Inv cfg (step cfg s who) := by
  unfold step
  split
  · exact Inv_ctrlStep cfg s h
  · split
    · rename_i hw0 hwN
      obtain ⟨hk, hc, hp⟩ := h
      refine ⟨?_, hc, hp⟩
      intro k h1 h2
      have := hk k h1 h2
      by_cases hkw : k = who
      · subst hkw
        simpa [setAt] using okAt_workerStep cfg k _ _ _ this
      · simpa [setAt, hkw] using this
    · exact h

theorem Inv_foldl (cfg : ProtoCfg) (sched : List Nat) :
    ∀ s, Inv cfg s → Inv cfg (sched.foldl (step cfg) s) := by
  induction sched with
  | nil => intro s h; exact h
  | cons a t ih => intro s h; exact ih _ (Inv_step cfg s a h)

theorem Inv_runSched (cfg : ProtoCfg) (sched : List Nat) : Inv cfg (runSched cfg sched) :=
  Inv_foldl cfg sched _ (Inv_init cfg)

/-- A failing Worker keeps the Controller at or before the poll of its slot: the slot holds one
of 0, 1, 2, 3 and the Controller has not terminated. -/
theorem stuck_of_allocFails (cfg : ProtoCfg) (s : Sys) (h : Inv cfg s) (k : Nat) (h1 : 1 ≤ k)
    (h2 : k ≤ cfg.nr_procs) (hf : cfg.allocFails k = true) :
    0 ≤ s.procmap k ∧ s.procmap k ≤ 3 ∧ ctrlExit s.ctrl = none ∧ s.ctrl ≠ CtrlPc.report := by
  have hk := h.1 k h1 h2
  rw [hf] at hk
  cases hs : s.ctrl <;> simp only [hs, expect] at hk <;> (try split_ifs at hk) <;>
    simp [okAt] at hk <;> simp [ctrlExit] <;> omega

theorem rank_of_startedAlloc (st : Stage) (v : Int) (w : WorkPc) (h : okAt false st v w)
    (hw : startedAlloc w = true) : 3 ≤ st.rank := by
  cases st <;> cases w <;> simp_all [okAt, startedAlloc, Stage.rank]

theorem ackedSync_of_rank (st : Stage) (v : Int) (w : WorkPc) (h : okAt false st v w)
    (hr : 2 ≤ st.rank) : ackedSync w = true := by
  cases st <;> cases w <;> simp_all [okAt, ackedSync, Stage.rank]

theorem rank_of_startedRun (st : Stage) (v : Int) (w : WorkPc) (h : okAt false st v w)
    (hw : startedRun w = true) : 5 ≤ st.rank := by
  cases st <;> cases w <;> simp_all [okAt, startedRun, Stage.rank]

theorem ackedAlloc_of_rank (st : Stage) (v : Int) (w : WorkPc) (h : okAt false st v w)
    (hr : 4 ≤ st.rank) : ackedAlloc w = true := by
  cases st <;> cases w <;> simp_all [okAt, ackedAlloc, Stage.rank]

/-- Two slots are never more than one stage apart. -/
theorem expect_rank_le (c : CtrlPc) (k j : Nat) : (expect c k).rank ≤ (expect c j).rank + 1 := by
  cases c <;> simp only [expect] <;> (try split_ifs) <;> simp [Stage.rank]

/-- C1. Barrier ordering. Under every interleaving of the Controller and the `nr_procs`
Workers, with no allocation failure: when the Controller is about to issue its first
`ALLOC_REQUESTED` write every slot `1..nr_procs` holds `SYNC_ACK` (2); when it is about to issue
its first `RUN_REQUESTED` write every slot holds `ALLOC_ACK` (4); when it leaves the last poll
loop to stop the run timer, and afterwards, every slot holds `RUN_DONE` (6). Consequently a
Worker that has started allocating implies that all Workers have acknowledged readiness, and a
Worker that has started the measured workload implies that all have acknowledged allocation. -/
theorem barrier_ordering (cfg : ProtoCfg) (sched : List Nat)
    (hno : ∀ k, cfg.allocFails k = false) :
    ((runSched cfg sched).ctrl = CtrlPc.allocWrite 1 →
        ∀ k, 1 ≤ k → k ≤ cfg.nr_procs → (runSched cfg sched).procmap k = 2) ∧
    ((runSched cfg sched).ctrl = CtrlPc.runWrite 1 →
        ∀ k, 1 ≤ k → k ≤ cfg.nr_procs → (runSched cfg sched).procmap k = 4) ∧
    (((∃ i, cfg.nr_procs < i ∧ (runSched cfg sched).ctrl = CtrlPc.runPoll i) ∨
        (runSched cfg sched).ctrl = CtrlPc.report ∨ (runSched cfg sched).ctrl = CtrlPc.done) →
        ∀ k, 1 ≤ k → k ≤ cfg.nr_procs → (runSched cfg sched).procmap k = 6) ∧
    (∀ k, 1 ≤ k → k ≤ cfg.nr_procs → startedAlloc ((runSched cfg sched).wk k) = true →
        ∀ j, 1 ≤ j → j ≤ cfg.nr_procs → ackedSync ((runSched cfg sched).wk j) = true) ∧
    (∀ k, 1 ≤ k → k ≤ cfg.nr_procs → startedRun ((runSched cfg sched).wk k) = true →
        ∀ j, 1 ≤ j → j ≤ cfg.nr_procs → ackedAlloc ((runSched cfg sched).wk j) = true) := by
  have hinv := (Inv_runSched cfg sched).1
  generalize runSched cfg sched = s at hinv
  refine ⟨?_, ?_, ?_, ?_, ?_⟩
  · intro hc k h1 h2
    have := hinv k h1 h2
    have hk : ¬ k < 1 := by omega
    simp only [hc, expect, hk, if_false, okAt] at this
    exact this.1
  · intro hc k h1 h2
    have := hinv k h1 h2
    have hk : ¬ k < 1 := by omega
    simp only [hc, expect, hk, if_false, okAt] at this
    exact this.1
  · intro hc k h1 h2
    have := hinv k h1 h2
    rcases hc with ⟨i, hi, hc⟩ | hc | hc
    · have hk : k < i := by omega
      simp only [hc, expect, hk, if_true, okAt] at this
      exact this.1
    · simp only [hc, expect, okAt] at this
      exact this.1
    · simp only [hc, expect, okAt] at this
      exact this.1
  · intro k h1 h2 hw j hj1 hj2
    have hk := hinv k h1 h2
    have hj := hinv j hj1 hj2
    rw [hno] at hk hj
    have r1 := rank_of_startedAlloc _ _ _ hk hw
    have r2 := expect_rank_le s.ctrl k j
    exact ackedSync_of_rank _ _ _ hj (by omega)
  · intro k h1 h2 hw j hj1 hj2
    have hk := hinv k h1 h2
    have hj := hinv j hj1 hj2
    rw [hno] at hk hj
    have r1 := rank_of_startedRun _ _ _ hk hw
    have r2 := expect_rank_le s.ctrl k j
    exact ackedAlloc_of_rank _ _ _ hj (by omega)

/-- Witness for C1: under `schedTwo` the Controller of `cfgTwo` stands before its first
`ALLOC_REQUESTED` write, and both slots hold `SYNC_ACK`. -/
theorem barrier_ordering_witness :
    (runSched cfgTwo schedTwo).ctrl = CtrlPc.allocWrite 1 ∧
      ∀ k, 1 ≤ k → k ≤ cfgTwo.nr_procs → (runSched cfgTwo schedTwo).procmap k = 2 :=
  ⟨by decide, (barrier_ordering cfgTwo schedTwo (fun _ => rfl)).1 (by decide)⟩

/-- C2 (evaluation of the code where the claim fails). With one Worker whose `make_array`
fails, the Worker exits with its slot still holding `ALLOC_REQUESTED` (3); and under every
interleaving the slot is never negative, the Controller never executes the `ABORT` branch, never
reaches the report and never terminates: it polls the slot forever instead of exiting with
status 1. -/
theorem alloc_failure_hangs :
    (runSched cfgFail schedFail).wk 1 = WorkPc.exit1 ∧
    (runSched cfgFail schedFail).procmap 1 = 3 ∧
    ∀ sched : List Nat,
      0 ≤ (runSched cfgFail sched).procmap 1 ∧ (runSched cfgFail sched).procmap 1 ≤ 3 ∧
      (runSched cfgFail sched).ctrl ≠ CtrlPc.abort ∧
      (runSched cfgFail sched).ctrl ≠ CtrlPc.report ∧
      ctrlExit (runSched cfgFail sched).ctrl = none := by
  refine ⟨by decide, by decide, ?_⟩
  intro sched
  have h := stuck_of_allocFails cfgFail _ (Inv_runSched cfgFail sched) 1 (le_refl 1)
    (by decide) rfl
  refine ⟨h.1, h.2.1, ?_, h.2.2.2, h.2.2.1⟩
  intro hc
  have := h.2.2.1
  rw [hc] at this
  simp [ctrlExit] at this

/-! ## Theorems: the copy patterns -/

theorem length_mempcpy {α : Type} (b a : List α) (p n : Nat) (hb : b.length = a.length)
    (hp : p + n ≤ a.length) : (mempcpy b p a p n).length = a.length := by
  simp only [mempcpy, List.length_append, List.length_take, List.length_drop]
  omega

theorem take_mempcpy {α : Type} (b a : List α) (p n : Nat) (hb : b.length = a.length)
    (hp : p + n ≤ a.length) (hpre : b.take p = a.take p) :
    (mempcpy b p a p n).take (p + n) = a.take (p + n) := by
  have h1 : (b.take p ++ (a.drop p).take n).length = p + n := by
    simp only [List.length_append, List.length_take, List.length_drop]
    omega
  unfold mempcpy
  rw [List.take_left' h1, hpre, ← List.take_add]

theorem plainCopy_eq {α : Type} (a b : List α) (hb : b.length = a.length) :
    plainCopy a.length a b = a := by
  simp [plainCopy, mempcpy, ← hb]

/-- The block loop, started after `p` copied bytes, ends after the last whole block. -/
theorem blockLoop_spec {α : Type} (B : Nat) (a : List α) (hB : 0 < B) :
    ∀ (fuel t p : Nat) (b : List α), t / B < fuel → p + t = a.length → b.length = a.length →
      b.take p = a.take p →
      ∃ t1 p1 b1, blockLoop B a fuel t p p b = some (t1, p1, p1, b1) ∧ p1 + t1 = a.length ∧
        b1.length = a.length ∧ b1.take p1 = a.take p1 := by
  intro fuel
  induction fuel with
  | zero => intro t p b h; exact absurd h (Nat.not_lt_zero _)
  | succ n ih =>
    intro t p b hf hpt hb hpre
    unfold blockLoop
    split
    · rename_i hle
      have hdiv : (t - B) / B < n := by
        have : t / B = (t - B) / B + 1 := Nat.div_eq_sub_div hB hle
        omega
      exact ih (t - B) (p + B) _ hdiv (by omega) (length_mempcpy b a p B hb (by omega))
        (take_mempcpy b a p B hb (by omega) hpre)
    · exact ⟨t, p, b, rfl, hpt, hb, hpre⟩

/-- C4. Block-copy correctness: for a source buffer `a` of `S` bytes, a destination buffer of
the same size and a block size `B` with `0 < B <= S`, one pass of the block-copy pattern
terminates (any fuel above `S / B` loop tests suffices) and leaves in the destination what the
plain-copy pattern leaves there, which is the source. -/
theorem blockCopy_eq_plainCopy {α : Type} (a b : List α) (S B fuel : Nat) (ha : a.length = S)
    (hb : b.length = S) (hB : 0 < B) (hBS : B ≤ S) (hfuel : S / B < fuel) :
    blockCopy fuel S B a b = some (plainCopy S a b) ∧ plainCopy S a b = a := by
  subst ha
  have hplain := plainCopy_eq a b hb
  refine ⟨?_, hplain⟩
  obtain ⟨t1, p1, b1, hloop, hsum, hlen, hpre⟩ :=
    blockLoop_spec B a hB fuel a.length 0 b hfuel (by omega) hb (by simp)
  rw [hplain]
  simp only [blockCopy, hloop]
  congr 1
  split
  · simp only [mempcpy, hpre]
    have h1 : List.drop (p1 + t1) b1 = [] := List.drop_of_length_le (by omega)
    have h2 : List.take t1 (List.drop p1 a) = List.drop p1 a :=
      List.take_of_length_le (by simp; omega)
    rw [h1, h2, List.append_nil, List.take_append_drop]
  · rename_i ht
    have ht0 : t1 = 0 := by omega
    have hp : p1 = a.length := by omega
    rw [hp, List.take_length] at hpre
    rw [← hpre]
    exact (List.take_of_length_le (le_of_eq hlen)).symm

/-- Witness for C4: a buffer of five bytes copied in blocks of two. -/
theorem blockCopy_eq_plainCopy_witness :
    blockCopy 3 5 2 [10, 20, 30, 40, 50] [0, 0, 0, 0, 0]
        = some (plainCopy 5 [10, 20, 30, 40, 50] [0, 0, 0, 0, 0]) ∧
      plainCopy 5 [10, 20, 30, 40, 50] [0, 0, 0, 0, 0] = [10, 20, 30, 40, 50] :=
  blockCopy_eq_plainCopy [10, 20, 30, 40, 50] [0, 0, 0, 0, 0] 5 2 3 rfl rfl (by decide)
    (by decide) (by decide)

/-- With a block size of zero the loop of lines 141-144 never ends, whatever the fuel. -/
theorem blockCopy_zero_block {α : Type} (a b : List α) (S : Nat) :
    ∀ fuel, blockCopy fuel S 0 a b = none := by
  have h : ∀ (fuel t aa bb : Nat) (b1 : List α), blockLoop 0 a fuel t aa bb b1 = none := by
    intro fuel
    induction fuel with
    | zero => intro t aa bb b1; rfl
    | succ n ih =>
      intro t aa bb b1
      unfold blockLoop
      rw [if_pos (Nat.zero_le t)]
      exact ih _ _ _ _
  intro fuel
  simp [blockCopy, h]

/-! ## Theorems: execution loop and aggregation -/

theorem trialLoop_spec (n : Nat) (el : Nat → ℚ) (t : Nat) (hn : n ≠ 0) :
    ∀ (fuel i : Nat) (te_sum : ℚ) (r : Store), i ≤ n → n - i < fuel →
      trialLoop n el t fuel i te_sum r
        = some (te_sum + ∑ k in Finset.Ico i n, el k, trialsDone n el t i r) := by
  intro fuel
  induction fuel with
  | zero => intro i te_sum r _ h; omega
  | succ f ih =>
    intro i te_sum r hi hf
    unfold trialLoop
    by_cases hlt : i < n
    · have hc : n = 0 ∨ i < n := Or.inr hlt
      rw [if_pos hc, if_pos hn, ih (i + 1) _ _ (by omega) (by omega)]
      rw [Finset.sum_eq_sum_Ico_succ_bot hlt, add_assoc]
      congr 2
      funext j t1
      simp only [trialsDone, Store.set]
      by_cases h1 : t1 = t
      · by_cases h2 : j = i + 1
        · subst h2
          have : ¬ (i + 1 < i + 1) := by omega
          have h4 : i + 1 ≤ n := hlt
          simp [h1, h4]
        · by_cases h3 : i + 1 < j ∧ j ≤ n
          · have : i < j ∧ j ≤ n := by omega
            simp [h1, h2, h3, this]
          · have : ¬ (i < j ∧ j ≤ n) := by omega
            simp [h1, h2, h3, this]
      · simp [h1]
    · have hc : ¬ (n = 0 ∨ i < n) := by
        intro h
        rcases h with h | h
        · exact hn h
        · exact hlt h
      have hin : i = n := by omega
      rw [if_neg hc]
      subst hin
      have : trialsDone i el t i r = r := by
        funext j t1
        simp only [trialsDone]
        have : ¬ (t1 = t ∧ i < j ∧ j ≤ i) := by omega
        simp [this]
      simp [this]

theorem runTest_enabled (cfg : RunCfg) (elapsed : Nat → Nat → ℚ) (fuel : Nat) (r : Store)
    (t : Nat) (hn : 1 ≤ cfg.nr_loops) (hf : cfg.nr_loops < fuel) (ht : cfg.tests t = true) :
    runTest cfg elapsed fuel r t
      = some ((trialsDone cfg.nr_loops (elapsed t) t 0 r).set 0 t
          ((∑ k in Finset.range cfg.nr_loops, elapsed t k) / (cfg.nr_loops : ℚ))) := by
  unfold runTest
  rw [if_pos ht, trialLoop_spec cfg.nr_loops (elapsed t) t (by omega) fuel 0 0 r (by omega)
    (by omega)]
  simp only [zero_add, Nat.Ico_zero_eq_range]

theorem runTest_disabled (cfg : RunCfg) (elapsed : Nat → Nat → ℚ) (fuel : Nat) (r : Store)
    (t : Nat) (ht : cfg.tests t = false) : runTest cfg elapsed fuel r t = some r := by
  simp [runTest, ht]

/-- The effect of the loop body of lines 604-626 on the Result Store. -/
theorem runTest_eq (cfg : RunCfg) (elapsed : Nat → Nat → ℚ) (fuel : Nat) (r : Store)
    (t : Nat) (hn : 1 ≤ cfg.nr_loops) (hf : cfg.nr_loops < fuel) :
    runTest cfg elapsed fuel r t
      = some (fun j t1 =>
          if t1 = t ∧ cfg.tests t = true then
            if j = 0 then (∑ k in Finset.range cfg.nr_loops, elapsed t k) / (cfg.nr_loops : ℚ)
            else if j ≤ cfg.nr_loops then elapsed t (j - 1)
            else r j t1
          else r j t1) := by
  cases ht : cfg.tests t with
  | false => simp [runTest_disabled cfg elapsed fuel r t ht]
  | true =>
    rw [runTest_enabled cfg elapsed fuel r t hn hf ht]
    congr 1
    funext j t1
    simp only [Store.set, trialsDone]
    by_cases h1 : t1 = t
    · by_cases h2 : j = 0
      · simp [h1, h2]
      · have h3 : 0 < j := by omega
        simp [h1, h2, h3]
    · simp [h1]

/-- With `nr_loops >= 1` and enough fuel the execution loop finishes, and leaves
`writtenStore` behind. -/
theorem executionLoop_eq (cfg : RunCfg) (elapsed : Nat → Nat → ℚ) (fuel : Nat)
    (hn : 1 ≤ cfg.nr_loops) (hf : cfg.nr_loops < fuel) :
    executionLoop cfg elapsed fuel = some (writtenStore cfg elapsed) := by
  have hr : List.range MAX_TESTS = [0, 1, 2] := by decide
  unfold executionLoop
  rw [hr]
  simp only [List.foldlM, bind, Option.bind, runTest_eq cfg elapsed fuel _ _ hn hf, pure]
  congr 1
  funext j t
  simp only [writtenStore, Store.zero, MAX_TESTS]
  by_cases h0 : t = 0
  · subst h0
    simp
  · by_cases h1 : t = 1
    · subst h1
      simp
    · by_cases h2 : t = 2
      · subst h2
        simp
      · have : ¬ t < 3 := by omega
        simp [h0, h1, h2, this]

/-- C5. With `nr_loops >= 1` the Worker's execution loop finishes, and afterwards, for every
test type, cell 0 of the Result Store equals the arithmetic mean of cells `1..nr_loops` of that
test type, where for an enabled test cell `i + 1` holds the elapsed time of trial `i`. -/
theorem mean_cell_eq (cfg : RunCfg) (elapsed : Nat → Nat → ℚ) (fuel : Nat)
    (hn : 1 ≤ cfg.nr_loops) (hf : cfg.nr_loops < fuel) :
    ∃ r, executionLoop cfg elapsed fuel = some r ∧
      ∀ t, t < MAX_TESTS →
        (cfg.tests t = true → ∀ i, i < cfg.nr_loops → r (i + 1) t = elapsed t i) ∧
        r 0 t = (∑ i in Finset.range cfg.nr_loops, r (i + 1) t) / (cfg.nr_loops : ℚ) := by
  refine ⟨_, executionLoop_eq cfg elapsed fuel hn hf, ?_⟩
  intro t ht
  cases hte : cfg.tests t with
  | false => simp [writtenStore, hte]
  | true =>
    have hcell : ∀ i, i < cfg.nr_loops → writtenStore cfg elapsed (i + 1) t = elapsed t i := by
      intro i hi
      have h1 : i + 1 ≤ cfg.nr_loops := hi
      simp [writtenStore, ht, hte, h1]
    refine ⟨fun _ => hcell, ?_⟩
    rw [Finset.sum_congr rfl (fun i hi => hcell i (Finset.mem_range.mp hi))]
    simp [writtenStore, ht, hte]

/-- Witness for C5: two loops, fuel three. -/
theorem mean_cell_eq_witness :
    ∃ r, executionLoop cfgOneTwo (fun _ _ => 1) 3 = some r ∧
      ∀ t, t < MAX_TESTS →
        (cfgOneTwo.tests t = true → ∀ i, i < cfgOneTwo.nr_loops → r (i + 1) t = 1) ∧
        r 0 t = (∑ i in Finset.range cfgOneTwo.nr_loops, r (i + 1) t) /
          (cfgOneTwo.nr_loops : ℚ) :=
  mean_cell_eq cfgOneTwo (fun _ _ => 1) 3 (by decide) (by decide)

theorem addD_zero (a : Option ℚ) : addD a (some 0) = a := by
  cases a <;> simp [addD]

theorem foldl_addD_sum (F G : Nat → Option ℚ) (f g : Nat → ℚ) (m : Nat)
    (hF : ∀ i, i < m → F i = some (f i)) (hG : ∀ i, i < m → G i = some (g i)) :
    (List.range m).foldl (fun acc i => (addD acc.1 (F i), addD acc.2 (G i)))
        ((some 0 : Option ℚ), (some 0 : Option ℚ))
      = (some (∑ i in Finset.range m, f i), some (∑ i in Finset.range m, g i)) := by
  induction m with
  | zero => simp
  | succ k ih =>
    rw [List.range_succ, List.foldl_append,
      ih (fun i hi => hF i (by omega)) (fun i hi => hG i (by omega))]
    simp [addD, hF k (Nat.lt_succ_self k), hG k (Nat.lt_succ_self k), Finset.sum_range_succ]

theorem speed_of_ne_zero (cfg : RunCfg) (mp : Store) (j t : Nat) (h : mp j t ≠ 0) :
    speed cfg mp j t = some (loopSpeed cfg mp j t) := by
  rw [speed, if_neg h, loopSpeed]

/-- The accumulation of lines 508-519 sums over the loops `1..nr_loops`, when no elapsed time
is zero. -/
theorem speedSums_eq (cfg : RunCfg) (mp : Store) (t : Nat)
    (hnz : ∀ j, 1 ≤ j → j ≤ cfg.nr_loops → mp j t ≠ 0) :
    speedSums cfg mp t
      = (some (∑ j in Finset.range cfg.nr_loops, loopSpeed cfg mp (j + 1) t),
          some (∑ j in Finset.range cfg.nr_loops,
            loopSpeed cfg mp (j + 1) t * loopSpeed cfg mp (j + 1) t)) := by
  have h : speedSums cfg mp t
      = (List.range (cfg.nr_loops + 1)).foldl
          (fun acc j => (addD acc.1 (if j ≠ 0 then speed cfg mp j t else some 0),
            addD acc.2 (if j ≠ 0 then mulD (speed cfg mp j t) (speed cfg mp j t) else some 0)))
          (some 0, some 0) := by
    unfold speedSums
    congr 1
    funext acc j
    by_cases hj : j = 0 <;> simp [hj, addD_zero]
  rw [h, foldl_addD_sum _ _ (fun j => if j ≠ 0 then loopSpeed cfg mp j t else 0)
    (fun j => if j ≠ 0 then loopSpeed cfg mp j t * loopSpeed cfg mp j t else 0),
    Finset.sum_range_succ', Finset.sum_range_succ']
  · simp
  · intro j hj
    by_cases h0 : j = 0
    · simp [h0]
    · simp [h0, speed_of_ne_zero cfg mp j t (hnz j (by omega) (by omega))]
  · intro j hj
    by_cases h0 : j = 0
    · simp [h0]
    · simp [h0, speed_of_ne_zero cfg mp j t (hnz j (by omega) (by omega)), mulD]

theorem totalSpeed_eq (cfg : RunCfg) (mpresults : Nat → Store) (t : Nat)
    (hnz : ∀ i j, 1 ≤ i → i ≤ cfg.nr_procs → 1 ≤ j → j ≤ cfg.nr_loops → mpresults i j t ≠ 0) :
    (totalSpeed cfg mpresults t).1
      = some (∑ i in Finset.range cfg.nr_procs, ∑ j in Finset.range cfg.nr_loops,
          loopSpeed cfg (mpresults (i + 1)) (j + 1) t) := by
  unfold totalSpeed
  rw [foldl_addD_sum _ _
    (fun i => ∑ j in Finset.range cfg.nr_loops, loopSpeed cfg (mpresults (i + 1)) (j + 1) t)
    (fun i => ∑ j in Finset.range cfg.nr_loops,
      loopSpeed cfg (mpresults (i + 1)) (j + 1) t * loopSpeed cfg (mpresults (i + 1)) (j + 1) t)]
  · intro i hi
    rw [speedSums_eq cfg (mpresults (i + 1)) t (fun j h1 h2 => hnz (i + 1) j (by omega) (by omega) h1 h2)]
  · intro i hi
    rw [speedSums_eq cfg (mpresults (i + 1)) t (fun j h1 h2 => hnz (i + 1) j (by omega) (by omega) h1 h2)]

theorem storesTwoOne_cell (i j t : Nat) (hj : j ≤ 1) (ht : t < MAX_TESTS) :
    storesTwoOne i j t = 1 := by
  have h : j = 0 ∨ j = 1 := by omega
  rcases h with h | h <;> simp [storesTwoOne, writtenStore, cfgTwoOne, ht, h]

/-- C9 (counterexample). Two workers, one loop of one second each, one MiB, one repeat, with
the Result Stores the execution loops leave: both per-loop speeds are 1, their mean over
workers and loops is 1, and the figure printed under `Total speed:` is 2, the total over the
workers. -/
theorem total_over_workers_ne_mean :
    (∀ i, executionLoop cfgTwoOne (fun _ _ => 1) 2 = some (storesTwoOne i)) ∧
      (totalSpeed cfgTwoOne storesTwoOne 0).1 = some 2 ∧
      meanSpeed cfgTwoOne storesTwoOne 0 = 1 ∧
      (totalSpeed cfgTwoOne storesTwoOne 0).1 ≠ some (meanSpeed cfgTwoOne storesTwoOne 0) := by
  have h0 : ∀ i, executionLoop cfgTwoOne (fun _ _ => 1) 2 = some (storesTwoOne i) :=
    fun _ => executionLoop_eq cfgTwoOne (fun _ _ => 1) 2 (by decide) (by decide)
  have hc : ∀ i, storesTwoOne i 1 0 = 1 :=
    fun i => storesTwoOne_cell i 1 0 (le_refl 1) (by decide)
  have h1 : (totalSpeed cfgTwoOne storesTwoOne 0).1 = some 2 := by
    rw [totalSpeed_eq]
    · norm_num [cfgTwoOne, loopSpeed, hc, Finset.sum_range_succ]
    · intro i j _ _ hj1 hj2
      have hj : j = 1 := by
        have : j ≤ 1 := hj2
        omega
      rw [hj, hc]
      norm_num
  have h2 : meanSpeed cfgTwoOne storesTwoOne 0 = 1 := by
    norm_num [meanSpeed, cfgTwoOne, loopSpeed, hc, Finset.sum_range_succ]
  refine ⟨h0, h1, h2, ?_⟩
  rw [h1, h2]
  norm_num

/-- C9 (amended). For `nr_procs >= 1`, `nr_loops = 1` and every test type whose elapsed times
are not zero, the global per-test figure the Controller prints is the total over the workers of
the speed of the loop (loop 0 excluded), that is `nr_procs` times the arithmetic mean of the
per-loop speeds over all workers. -/
theorem totalSpeed_eq_sum (cfg : RunCfg) (mpresults : Nat → Store) (t : Nat)
    (hp : 1 ≤ cfg.nr_procs) (hn : cfg.nr_loops = 1)
    (hnz : ∀ i, 1 ≤ i → i ≤ cfg.nr_procs → mpresults i 1 t ≠ 0) :
    (totalSpeed cfg mpresults t).1
        = some (∑ i in Finset.range cfg.nr_procs, loopSpeed cfg (mpresults (i + 1)) 1 t) ∧
      ∑ i in Finset.range cfg.nr_procs, loopSpeed cfg (mpresults (i + 1)) 1 t
        = (cfg.nr_procs : ℚ) * meanSpeed cfg mpresults t := by
  have hne : (cfg.nr_procs : ℚ) ≠ 0 := by
    have : 0 < cfg.nr_procs := hp
    exact_mod_cast this.ne'
  constructor
  · rw [totalSpeed_eq cfg mpresults t]
    · simp [hn]
    · intro i j h1 h2 hj1 hj2
      have hj : j = 1 := by omega
      rw [hj]
      exact hnz i h1 h2
  · rw [meanSpeed, hn]
    simp only [Finset.range_one, Finset.sum_singleton, Nat.mul_one, Nat.zero_add]
    rw [mul_div_cancel₀ _ hne]

/-- Witness for C9 (amended). -/
theorem totalSpeed_eq_sum_witness :
    (totalSpeed cfgTwoOne storesTwoOne 0).1
        = some (∑ i in Finset.range cfgTwoOne.nr_procs,
            loopSpeed cfgTwoOne (storesTwoOne (i + 1)) 1 0) ∧
      ∑ i in Finset.range cfgTwoOne.nr_procs, loopSpeed cfgTwoOne (storesTwoOne (i + 1)) 1 0
        = (cfgTwoOne.nr_procs : ℚ) * meanSpeed cfgTwoOne storesTwoOne 0 :=
  totalSpeed_eq_sum cfgTwoOne storesTwoOne 0 (by decide) rfl
    (fun i _ _ => by
      rw [storesTwoOne_cell i 1 0 (le_refl 1) (by decide)]
      norm_num)

/-- With one worker and two loops of one second each, the worker's own mean speed (line 532,
`speedsum / nr_loops`) is 1, and the figure of line 563 is 2: line 563 does not divide by
`nr_loops`. -/
theorem total_not_divided_by_loops :
    (speedSums cfgOneTwo (storeOnes 1) 0).1 = some 2 ∧
      (totalSpeed cfgOneTwo storeOnes 0).1 = some 2 ∧ meanSpeed cfgOneTwo storeOnes 0 = 1 := by
  have hnz : ∀ i j : Nat, storeOnes i j 0 ≠ 0 := by
    intro i j
    simp [storeOnes]
  refine ⟨?_, ?_, ?_⟩
  · rw [speedSums_eq cfgOneTwo (storeOnes 1) 0 (fun j _ _ => hnz 1 j)]
    norm_num [cfgOneTwo, storeOnes, loopSpeed, Finset.sum_range_succ]
  · rw [totalSpeed_eq cfgOneTwo storeOnes 0 (fun i j _ _ _ _ => hnz i j)]
    norm_num [cfgOneTwo, storeOnes, loopSpeed, Finset.sum_range_succ]
  · norm_num [meanSpeed, cfgOneTwo, storeOnes, loopSpeed, Finset.sum_range_succ]

theorem worker_run_time_eq (cfg : RunCfg) (mp : Store) :
    worker_run_time cfg mp
      = mp 0 0 * (cfg.nr_loops : ℚ) + mp 0 1 * (cfg.nr_loops : ℚ) + mp 0 2 * (cfg.nr_loops : ℚ) := by
  have hr : List.range MAX_TESTS = [0, 1, 2] := by decide
  simp [worker_run_time, hr]

theorem sum_enabled (cfg : RunCfg) (f : Nat → ℚ) :
    ∑ t in enabledTests cfg, f t
      = (if cfg.tests 0 = true then f 0 else 0) + (if cfg.tests 1 = true then f 1 else 0) +
          (if cfg.tests 2 = true then f 2 else 0) := by
  unfold enabledTests
  rw [Finset.sum_filter]
  simp [MAX_TESTS, Finset.sum_range_succ]

/-- C10. For `nr_loops >= 1`, with the Result Store the Worker's execution loop leaves behind,
the idle time the Controller computes equals the total run time minus the sum over the enabled
test types of the mean elapsed time (cell 0) times `nr_loops`; equivalently minus the sum of all
trial samples of the worker; hence it is non-negative whenever the samples sum to at most the
total run time. -/
theorem idletime_eq (cfg : RunCfg) (elapsed : Nat → Nat → ℚ) (fuel : Nat) (total_run_time : ℚ)
    (hn : 1 ≤ cfg.nr_loops) (hf : cfg.nr_loops < fuel) :
    ∃ r, executionLoop cfg elapsed fuel = some r ∧
      idletime cfg total_run_time r
        = total_run_time - ∑ t in enabledTests cfg, r 0 t * (cfg.nr_loops : ℚ) ∧
      idletime cfg total_run_time r
        = total_run_time - ∑ t in enabledTests cfg, ∑ i in Finset.range cfg.nr_loops, elapsed t i ∧
      (∑ t in enabledTests cfg, ∑ i in Finset.range cfg.nr_loops, elapsed t i ≤ total_run_time →
        0 ≤ idletime cfg total_run_time r) := by
  refine ⟨_, executionLoop_eq cfg elapsed fuel hn hf, ?_⟩
  have hne : (cfg.nr_loops : ℚ) ≠ 0 := by
    have : 0 < cfg.nr_loops := hn
    exact_mod_cast this.ne'
  have h2 : idletime cfg total_run_time (writtenStore cfg elapsed)
      = total_run_time - ∑ t in enabledTests cfg, ∑ i in Finset.range cfg.nr_loops, elapsed t i := by
    rw [idletime, worker_run_time_eq, sum_enabled]
    simp only [writtenStore, MAX_TESTS]
    cases cfg.tests 0 <;> cases cfg.tests 1 <;> cases cfg.tests 2 <;>
      simp [div_mul_cancel₀ _ hne]
  have h1 : idletime cfg total_run_time (writtenStore cfg elapsed)
      = total_run_time -
          ∑ t in enabledTests cfg, writtenStore cfg elapsed 0 t * (cfg.nr_loops : ℚ) := by
    rw [idletime, worker_run_time_eq, sum_enabled]
    simp only [writtenStore, MAX_TESTS]
    cases cfg.tests 0 <;> cases cfg.tests 1 <;> cases cfg.tests 2 <;> simp
  refine ⟨h1, h2, ?_⟩
  intro hle
  rw [h2]
  linarith

/-- Witness for C10. -/
theorem idletime_eq_witness :
    ∃ r, executionLoop cfgOneTwo (fun _ _ => 1) 3 = some r ∧
      idletime cfgOneTwo 10 r
        = 10 - ∑ t in enabledTests cfgOneTwo, r 0 t * (cfgOneTwo.nr_loops : ℚ) ∧
      idletime cfgOneTwo 10 r
        = 10 - ∑ _t in enabledTests cfgOneTwo, ∑ _i in Finset.range cfgOneTwo.nr_loops, (1 : ℚ) ∧
      (∑ _t in enabledTests cfgOneTwo, ∑ _i in Finset.range cfgOneTwo.nr_loops, (1 : ℚ) ≤ 10 →
        0 ≤ idletime cfgOneTwo 10 r) :=
  idletime_eq cfgOneTwo (fun _ _ => 1) 3 10 (by decide) (by decide)

/-- The loops of lines 497-521 run over all `MAX_TESTS` test numbers: on a Result Store that
held 5 in the cells of the disabled tests, which no run of the execution loop produces, the
idle time would be -8 instead of 2. -/
theorem aggregate_reads_disabled :
    agreeOnEnabled cfgPlain (storeWith 0) (storeWith 5) ∧
      (aggregateWorker cfgPlain 3 (storeWith 0 1)).idle = 2 ∧
      (aggregateWorker cfgPlain 3 (storeWith 5 1)).idle = -8 ∧
      aggregate cfgPlain 3 (storeWith 0) ≠ aggregate cfgPlain 3 (storeWith 5) := by
  refine ⟨?_, ?_, ?_, ?_⟩
  · intro i j t _ _ _ _ ht
    have : t = 0 := by simpa [cfgPlain] using ht
    simp [storeWith, this]
  · norm_num [aggregateWorker, idletime, worker_run_time_eq, cfgPlain, storeWith]
  · norm_num [aggregateWorker, idletime, worker_run_time_eq, cfgPlain, storeWith]
  · intro h
    have h2 := congrArg (fun r => r.workers.map WorkerReport.idle) h
    norm_num [aggregate, aggregateWorker, idletime, worker_run_time_eq, cfgPlain, storeWith]
      at h2

theorem readDigits_length (p : List Char) :
    ∀ t t1 p1, readDigits t p = some (t1, p1) → p1.length ≤ p.length := by
  induction p with
  | nil =>
    intro t t1 p1 h
    simp only [readDigits, Option.some.injEq, Prod.mk.injEq] at h
    rw [← h.2]
  | cons c p ih =>
    intro t t1 p1 h
    unfold readDigits at h
    split at h
    · split at h
      · exact Nat.le_succ_of_le (ih _ _ _ h)
      · exact absurd h (by simp)
    · simp only [Option.some.injEq, Prod.mk.injEq] at h
      rw [← h.2]

/-- The fuel `writePins` gives to the loop of lines 232-233 is enough: with an increment of
at least 1 the loop ends by its own test, and more fuel changes nothing. -/
theorem pinLoop_fuel (end_ inc : Int) (hinc : 1 ≤ inc) :
    ∀ (fuel : Nat) (i : Int) (pins : List Int), (end_ + 1 - i).toNat ≤ fuel →
      ∀ extra, pinLoop end_ inc (fuel + extra) i pins = pinLoop end_ inc fuel i pins := by
  intro fuel
  induction fuel with
  | zero =>
    intro i pins h extra
    have hi : ¬ i ≤ end_ := by omega
    cases extra with
    | zero => rfl
    | succ e =>
      rw [Nat.zero_add]
      unfold pinLoop
      rw [if_neg hi]
  | succ n ih =>
    intro i pins h extra
    have he : n + 1 + extra = (n + extra) + 1 := by omega
    rw [he]
    unfold pinLoop
    split
    · split
      · exact ih _ _ (by omega) extra
      · rfl
    · rfl

/-- The pins a defined run of the loop of lines 232-233 leaves stay inside the table. -/
theorem pinLoop_length (end_ inc : Int) :
    ∀ (fuel : Nat) (i : Int) (pins out : List Int), pins.length < PROCMAP_SIZE →
      pinLoop end_ inc fuel i pins = some out → out.length < PROCMAP_SIZE := by
  intro fuel
  induction fuel with
  | zero =>
    intro i pins out hp h
    simp only [pinLoop, Option.some.injEq] at h
    rw [← h]
    exact hp
  | succ n ih =>
    intro i pins out hp h
    unfold pinLoop at h
    split at h
    · split at h
      · rename_i hc
        exact ih _ _ _ (by simp only [List.length_append, List.length_singleton]; exact hc.1) h
      · exact absurd h (by simp)
    · simp only [Option.some.injEq] at h
      rw [← h]
      exact hp

/-- The loop of `parse_cpu_affinity_str` ends: one evaluation of the loop test per character,
and one more, suffice, and more fuel changes nothing. -/
theorem parseLoop_fuel : ∀ (fuel : Nat) (p : List Char) (start end_ step : Int)
    (pins : List Int), p.length < fuel →
      ∀ extra, parseLoop (fuel + extra) p start end_ step pins
        = parseLoop fuel p start end_ step pins := by
  intro fuel
  induction fuel with
  | zero => intro p _ _ _ _ h; omega
  | succ n ih =>
    intro p start end_ step pins hlen extra
    have he : n + 1 + extra = (n + extra) + 1 := by omega
    rw [he]
    cases p with
    | nil => rfl
    | cons c cs =>
      unfold parseLoop
      cases hr : readDigits 0 (c :: cs) with
      | none => rfl
      | some r =>
        obtain ⟨t, p1⟩ := r
        have hrd := readDigits_length (c :: cs) 0 t p1 hr
        cases p1 with
        | nil => rfl
        | cons d p2 =>
          have hp2 : p2.length < n := by
            simp only [List.length_cons] at hrd hlen
            omega
          simp only
          split
          · cases assignNumber start end_ step t with
            | none => rfl
            | some x => exact ih p2 _ _ _ _ hp2 extra
          · split
            · cases assignNumber start end_ step t with
              | none => rfl
              | some x =>
                simp only
                cases writePins x.1 x.2.1 x.2.2 pins with
                | none => rfl
                | some pins1 => exact ih p2 _ _ _ _ hp2 extra
            · rfl

/-- A defined result of the loop of `parse_cpu_affinity_str` is -1 or the number of pins
written, and the pins stay inside the table. -/
theorem parseLoop_spec : ∀ (fuel : Nat) (p : List Char) (start end_ step : Int)
    (pins out : List Int) (ret : Int), pins.length < PROCMAP_SIZE →
      parseLoop fuel p start end_ step pins = some (out, ret) →
        (ret = -1 ∨ ret = (out.length : Int)) ∧ out.length < PROCMAP_SIZE := by
  intro fuel
  induction fuel with
  | zero =>
    intro p _ _ _ pins out ret _ h
    simp [parseLoop] at h
  | succ n ih =>
    intro p start end_ step pins out ret hp h
    cases p with
    | nil =>
      simp only [parseLoop, Option.some.injEq, Prod.mk.injEq] at h
      rw [← h.1, ← h.2]
      exact ⟨Or.inr rfl, hp⟩
    | cons c cs =>
      unfold parseLoop at h
      cases hr : readDigits 0 (c :: cs) with
      | none =>
        rw [hr] at h
        exact absurd h (by simp)
      | some r =>
        obtain ⟨t, p1⟩ := r
        rw [hr] at h
        cases p1 with
        | nil =>
          simp only at h
          cases ha : assignNumber start end_ step t with
          | none =>
            rw [ha] at h
            simp only [Option.some.injEq, Prod.mk.injEq] at h
            rw [← h.1, ← h.2]
            exact ⟨Or.inl rfl, hp⟩
          | some x =>
            rw [ha] at h
            simp only at h
            cases hw : writePins x.1 x.2.1 x.2.2 pins with
            | none =>
              rw [hw] at h
              exact absurd h (by simp)
            | some pins1 =>
              rw [hw] at h
              simp only [Option.some.injEq, Prod.mk.injEq] at h
              rw [← h.1, ← h.2]
              exact ⟨Or.inr rfl, pinLoop_length _ _ _ _ _ _ hp hw⟩
        | cons d p2 =>
          simp only at h
          split at h
          · cases ha : assignNumber start end_ step t with
            | none =>
              rw [ha] at h
              simp only [Option.some.injEq, Prod.mk.injEq] at h
              rw [← h.1, ← h.2]
              exact ⟨Or.inl rfl, hp⟩
            | some x =>
              rw [ha] at h
              exact ih p2 _ _ _ _ _ _ hp h
          · split at h
            · cases ha : assignNumber start end_ step t with
              | none =>
                rw [ha] at h
                simp only [Option.some.injEq, Prod.mk.injEq] at h
                rw [← h.1, ← h.2]
                exact ⟨Or.inl rfl, hp⟩
              | some x =>
                rw [ha] at h
                simp only at h
                cases hw : writePins x.1 x.2.1 x.2.2 pins with
                | none =>
                  rw [hw] at h
                  exact absurd h (by simp)
                | some pins1 =>
                  rw [hw] at h
                  exact ih p2 _ _ _ _ _ _ (pinLoop_length _ _ _ _ _ _ hp hw) h
            · simp only [Option.some.injEq, Prod.mk.injEq] at h
              rw [← h.1, ← h.2]
              exact ⟨Or.inl rfl, hp⟩

/-- What `parse_cpu_affinity_str` returns, when the call has a defined result, is -1 or the
number of pins it wrote, which fit into the table. -/
theorem parse_cpu_affinity_str_spec (s : List Char) (out : List Int) (ret : Int)
    (h : parse_cpu_affinity_str s = some (out, ret)) :
    (ret = -1 ∨ ret = (out.length : Int)) ∧ out.length < PROCMAP_SIZE :=
  parseLoop_spec _ s _ _ _ _ _ _ (by decide) h

/-- The check of lines 342-347 rejects with code 1 only, and when the worker count is not -1
it accepts only a well-formed string whose number of resolved pins is the worker count. -/
theorem resolveAffinity_spec (nr_procs : Int) (s : List Char) (hne : nr_procs ≠ -1) :
    resolveAffinity nr_procs (some s) = Pre.exit 1 ∨
      resolveAffinity nr_procs (some s) = Pre.undefined ∨
      ∃ pins, resolveAffinity nr_procs (some s) = Pre.ok pins ∧
        parse_cpu_affinity_str s = some (pins, nr_procs) ∧ (pins.length : Int) = nr_procs := by
  cases hp : parse_cpu_affinity_str s with
  | none =>
    right
    left
    simp [resolveAffinity, hp]
  | some r =>
    obtain ⟨out, ret⟩ := r
    have hret := (parse_cpu_affinity_str_spec s out ret hp).1
    simp only [resolveAffinity, hp]
    by_cases h : ret = nr_procs
    · right
      right
      subst h
      refine ⟨out, by simp, rfl, ?_⟩
      rcases hret with h1 | h1
      · exact absurd h1 hne
      · exact h1.symm
    · left
      simp [h]

/-- C6 (evaluation of the code where the claim fails). With `-p -1` (`strtoul` returns
`2^64 - 1`, which becomes the `int` -1) and the affinity string `x`, the parser reports the
string as malformed (returns -1, no pin written), the check of line 343 compares -1 with
`nr_procs = -1`, and `main` goes on to the forks with array size 64: the run is not rejected,
although the number of resolved pins, 0, is not the worker count. -/
theorem affinity_malformed_accepted :
    parse_cpu_affinity_str "x".toList = some ([], -1) ∧
      resolveAffinity (-1) (some "x".toList) = Pre.ok [] ∧
      ∃ cfg, main_pre [Opt.p (2 ^ 64 - 1), Opt.f "x".toList] (some 64) = Pre.ok cfg ∧
        cfg.nr_procs = -1 ∧ cfg.cpu_pinno = [] := by
  refine ⟨by decide, by decide, ?_⟩
  exact ⟨_, rfl, by decide, by decide⟩

/-- C7 (evaluation of the code where the claim fails). The string of the usage text,
`0:3,6,7,8:2:16`, resolves to the nine indices 0,1,2,3,8,10,12,14,16: the single indices 6
and 7 are dropped, and so is every single index: `6` alone resolves to nothing and the
function returns 0. -/
theorem single_index_dropped :
    parse_cpu_affinity_str "0:3,6,7,8:2:16".toList
        = some ([0, 1, 2, 3, 8, 10, 12, 14, 16], 9) ∧
      parse_cpu_affinity_str "6".toList = some ([], 0) ∧
      parse_cpu_affinity_str "6:6".toList = some ([6], 1) := by
  refine ⟨by decide, by decide, by decide⟩

theorem optStep_spec (v : Vars) (o : Opt) (hb : 0 < v.block_size) :
    optStep v o = Pre.exit 1 ∨ ∃ v1, optStep v o = Pre.ok v1 ∧ 0 < v1.block_size := by
  cases o <;> rw [optStep] <;> (try split) <;> first
    | exact Or.inl rfl
    | exact Or.inr ⟨_, rfl, hb⟩
    | exact Or.inr ⟨_, rfl, by simp only; omega⟩

/-- The option loop ends with `exit(1)` or with a non-zero block size. -/
theorem getoptLoop_spec (opts : List Opt) :
    ∀ v : Vars, 0 < v.block_size →
      getoptLoop opts v = Pre.exit 1 ∨ ∃ v1, getoptLoop opts v = Pre.ok v1 ∧ 0 < v1.block_size := by
  induction opts with
  | nil => intro v hb; exact Or.inr ⟨v, rfl, hb⟩
  | cons o os ih =>
    intro v hb
    unfold getoptLoop
    rcases optStep_spec v o hb with h | ⟨v1, h, hb1⟩
    · rw [h]
      exact Or.inl rfl
    · rw [h]
      exact ih v1 hb1

theorem exactlyOneTest_iff (tests : Nat → Bool) : exactlyOneTest tests ↔ testsSum tests = 1 := by
  unfold exactlyOneTest testsSum
  have hr : Finset.range MAX_TESTS = {0, 1, 2} := by decide
  rw [hr]
  cases h0 : tests 0 <;> cases h1 : tests 1 <;> cases h2 : tests 2 <;>
    simp [Finset.filter_insert, Finset.filter_singleton, h0, h1, h2]

/-- Without `-f` the pins are defined exactly when the worker count is below the size of the
pin table. -/
theorem resolveAffinity_none (nr_procs : Int) :
    (nr_procs < (PROCMAP_SIZE : Int) →
        resolveAffinity nr_procs none
          = Pre.ok ((List.range nr_procs.toNat).map fun (i : Nat) => (i : Int))) ∧
      (¬ nr_procs < (PROCMAP_SIZE : Int) → resolveAffinity nr_procs none = Pre.undefined) := by
  constructor
  · intro h
    rw [resolveAffinity, if_pos h]
  · intro h
    rw [resolveAffinity, if_neg h]

theorem resolveAffinity_total (nr_procs : Int) (s : Option (List Char)) :
    resolveAffinity nr_procs s = Pre.exit 1 ∨ resolveAffinity nr_procs s = Pre.undefined ∨
      ∃ pins, resolveAffinity nr_procs s = Pre.ok pins := by
  cases s with
  | none =>
    by_cases h : nr_procs < (PROCMAP_SIZE : Int)
    · exact Or.inr (Or.inr ⟨_, (resolveAffinity_none nr_procs).1 h⟩)
    · exact Or.inr (Or.inl ((resolveAffinity_none nr_procs).2 h))
  | some s =>
    cases hp : parse_cpu_affinity_str s with
    | none =>
      right
      left
      simp [resolveAffinity, hp]
    | some r =>
      obtain ⟨pins, ret⟩ := r
      by_cases h : ret = nr_procs
      · right
        right
        exact ⟨pins, by simp [resolveAffinity, hp, h]⟩
      · left
        simp [resolveAffinity, hp, h]

theorem arrayBytes_le (asize : Nat) : arrayBytes asize ≤ asize * long_size :=
  Nat.mod_le _ _

theorem asizeOf_defined (mt : Nat) (h : mt < 2 ^ 47) :
    asizeOf mt = some (1024 * 1024 / long_size * mt) := by
  have h1 : 1024 * 1024 / long_size * mt < 2 ^ 64 := by
    have : 1024 * 1024 / long_size = 2 ^ 17 := by decide
    rw [this]
    omega
  rw [asizeOf, if_pos h1]

/-- The checks of lines 355-394 on resolved options with a non-zero block size. -/
theorem checkConfig_spec (v : Vars) (pins : List Int) (arg : Option Nat) (hb : 0 < v.block_size) :
    (checkConfig v pins arg = Pre.exit 1 ∧
        (violates v arg ∨ arg = none ∨ arg = some 0)) ∨
      (checkConfig v pins arg = Pre.undefined ∧ ¬ violates v arg ∧
        ∃ mt, arg = some mt ∧ 2 ^ 47 ≤ mt) ∨
      (¬ violates v arg ∧ ∃ cfg, checkConfig v pins arg = Pre.ok cfg ∧
        cfg.nr_loops = v.nr_loops ∧ cfg.tests = defaultTests v.tests ∧
        cfg.block_size = v.block_size ∧ arg = some cfg.mt ∧
        asizeOf cfg.mt = some cfg.asize) := by
  unfold checkConfig violates
  simp only [exactlyOneTest_iff]
  by_cases h1 : v.nr_loops = 0 ∧ testsSum (defaultTests v.tests) ≠ 1
  · rw [if_pos h1]
    exact Or.inl ⟨rfl, Or.inl (Or.inl h1)⟩
  · rw [if_neg h1]
    cases arg with
    | none => exact Or.inl ⟨rfl, Or.inr (Or.inl rfl)⟩
    | some mt =>
      simp only
      by_cases h2 : mt = 0
      · rw [if_pos h2]
        exact Or.inl ⟨rfl, Or.inr (Or.inr (by rw [h2]))⟩
      · rw [if_neg h2]
        cases has : asizeOf mt with
        | none =>
          refine Or.inr (Or.inl ⟨rfl, ?_, mt, rfl, ?_⟩)
          · rintro (h | h | ⟨m, a, hm, ha, -⟩)
            · exact h1 h
            · omega
            · cases hm
              rw [has] at ha
              exact absurd ha (by simp)
          · by_contra hlt
            rw [asizeOf_defined mt (by omega)] at has
            exact absurd has (by simp)
        | some asize =>
          simp only
          by_cases h3 : arrayBytes asize < v.block_size
          · rw [if_pos h3]
            exact Or.inl ⟨rfl, Or.inl (Or.inr (Or.inr ⟨mt, asize, rfl, has, h3⟩))⟩
          · rw [if_neg h3]
            refine Or.inr (Or.inr ⟨?_, _, rfl, rfl, rfl, rfl, rfl, has⟩)
            rintro (h | h | ⟨m, a, hm, ha, h⟩)
            · exact h1 h
            · omega
            · cases hm
              rw [has] at ha
              cases ha
              exact h3 h

/-- C8 (counterexample). With `-p 2000000000 -n 0 64` the resolved options violate condition
(a): `nr_loops` is 0 and, after the default, three tests are enabled. The loop of lines 335-338
writes `cpu_pinno[i]` for `i` up to 2000000000 into a table of `PROCMAP_SIZE` entries, so the
part of `main` before the forks has no defined result: it does not reach the check of line 363
and does not exit with code 1. -/
theorem validation_not_reached :
    ∃ v, getoptLoop [Opt.p 2000000000, Opt.n 0] Vars.init = Pre.ok v ∧ violates v (some 64) ∧
      main_pre [Opt.p 2000000000, Opt.n 0] (some 64) = Pre.undefined ∧
      main_pre [Opt.p 2000000000, Opt.n 0] (some 64) ≠ Pre.exit 1 := by
  refine ⟨{ nr_procs := 2000000000, nr_repeats := 3, nr_loops := 0,
            block_size := DEFAULT_BLOCK_SIZE, showavg := true, tests := fun _ => false,
            quiet := false, cpu_pinstr := none }, rfl, ?_, rfl, ?_⟩
  · refine Or.inl ⟨rfl, ?_⟩
    rw [exactlyOneTest_iff]
    decide
  · have h : main_pre [Opt.p 2000000000, Opt.n 0] (some 64) = Pre.undefined := rfl
    rw [h]
    simp

/-- C8 (amended). Configuration validation is sound where the part of `main` before the forks
has a defined result. Whatever the options and the positional argument,
(1) a configuration that reaches the forks has `nr_loops != 0` or exactly one test type enabled
(the empty selection being defaulted to all three), and a block size that is positive and at
most the array size in bytes; it carries the loop count, the defaulted tests and the block size
of the options; (2) resolved options violating one of the two conditions, whose affinity
resolution stays inside the pin table and the `int` range, are rejected with exit code 1;
(3) the part of `main` before the forks reaches the forks, exits with code 1, or has no defined
result; (4) it has a defined result whenever the affinity resolution has one and the array size
is below `2^47` MiB. -/
theorem config_validation_sound (opts : List Opt) (arg : Option Nat) :
    (∀ cfg, main_pre opts arg = Pre.ok cfg →
        (cfg.nr_loops ≠ 0 ∨ exactlyOneTest cfg.tests) ∧
        0 < cfg.block_size ∧ cfg.block_size ≤ arrayBytes cfg.asize ∧
        arrayBytes cfg.asize ≤ cfg.asize * long_size ∧ asizeOf cfg.mt = some cfg.asize ∧
        ∃ v, getoptLoop opts Vars.init = Pre.ok v ∧ cfg.nr_loops = v.nr_loops ∧
          cfg.tests = defaultTests v.tests ∧ cfg.block_size = v.block_size) ∧
      (∀ v, getoptLoop opts Vars.init = Pre.ok v →
        resolveAffinity v.nr_procs v.cpu_pinstr ≠ Pre.undefined → violates v arg →
        main_pre opts arg = Pre.exit 1) ∧
      (main_pre opts arg = Pre.exit 1 ∨ main_pre opts arg = Pre.undefined ∨
        ∃ cfg, main_pre opts arg = Pre.ok cfg) ∧
      (∀ v, getoptLoop opts Vars.init = Pre.ok v →
        resolveAffinity v.nr_procs v.cpu_pinstr ≠ Pre.undefined →
        (∀ mt, arg = some mt → mt < 2 ^ 47) → main_pre opts arg ≠ Pre.undefined) := by
  have hinit : 0 < Vars.init.block_size := by decide
  unfold main_pre
  rcases getoptLoop_spec opts Vars.init hinit with hg | ⟨v, hg, hb⟩
  · rw [hg]
    exact ⟨fun cfg h => by simp at h, fun v h => by simp at h, Or.inl rfl,
      fun v h => by simp at h⟩
  · rw [hg]
    simp only
    have hv : ∀ v1, Pre.ok v = Pre.ok v1 → v = v1 := by
      intro v1 h
      injection h
    rcases resolveAffinity_total v.nr_procs v.cpu_pinstr with ha | ha | ⟨pins, ha⟩
    · rw [ha]
      exact ⟨fun cfg h => by simp at h, fun _ _ _ _ => rfl, Or.inl rfl,
        fun _ _ _ _ => by simp⟩
    · rw [ha]
      refine ⟨fun cfg h => by simp at h, ?_, Or.inr (Or.inl rfl), ?_⟩
      · intro v1 hv1 hdef _
        rw [← hv v1 hv1] at hdef
        exact absurd ha hdef
      · intro v1 hv1 hdef _
        rw [← hv v1 hv1] at hdef
        exact absurd ha hdef
    · rw [ha]
      simp only
      rcases checkConfig_spec v pins arg hb with
        ⟨hc, -⟩ | ⟨hc, -, mt, hmt, hbig⟩ | ⟨hnv, cfg, hc, hl, ht, hbs, hmt, has⟩
      · rw [hc]
        exact ⟨fun cfg h => by simp at h, fun _ _ _ _ => rfl, Or.inl rfl,
          fun _ _ _ _ => by simp⟩
      · rw [hc]
        refine ⟨fun cfg h => by simp at h, ?_, Or.inr (Or.inl rfl), ?_⟩
        · intro v1 hv1 _ hviol
          rcases checkConfig_spec v pins arg hb with
            ⟨hc1, -⟩ | ⟨-, hnv, -⟩ | ⟨hnv, -⟩
          · rw [hc] at hc1
            exact absurd hc1 (by simp)
          · rw [← hv v1 hv1] at hviol
            exact absurd hviol hnv
          · rw [← hv v1 hv1] at hviol
            exact absurd hviol hnv
        · intro _ _ _ hsmall
          have := hsmall mt hmt
          omega
      · rw [hc]
        refine ⟨?_, ?_, Or.inr (Or.inr ⟨cfg, rfl⟩), fun _ _ _ _ => by simp⟩
        · intro cfg1 h1
          have hcfg : cfg = cfg1 := by
            injection h1
          subst hcfg
          have hviol := hnv
          unfold violates at hviol
          rw [hmt] at hviol
          refine ⟨?_, ?_, ?_, arrayBytes_le _, has, v, rfl, hl, ht, hbs⟩
          · by_cases h0 : v.nr_loops = 0
            · right
              rw [ht]
              by_contra hne
              exact hviol (Or.inl ⟨h0, hne⟩)
            · left
              rw [hl]
              exact h0
          · rw [hbs]
            exact hb
          · rw [hbs]
            by_contra hlt
            exact hviol (Or.inr (Or.inr ⟨cfg.mt, cfg.asize, rfl, has, by omega⟩))
        · intro v1 hv1 _ hviol1
          rw [← hv v1 hv1] at hviol1
          exact absurd hviol1 hnv

/-- Witness for C8 (amended): `-n 0 -t 0 -t 1 64` is rejected with code 1, as the resolved
options have `nr_loops = 0` with two tests enabled and one worker. -/
theorem config_validation_sound_witness :
    main_pre [Opt.n 0, Opt.t 0, Opt.t 1] (some 64) = Pre.exit 1 :=
  (config_validation_sound [Opt.n 0, Opt.t 0, Opt.t 1] (some 64)).2.1
    { nr_procs := 1, nr_repeats := 3, nr_loops := 0, block_size := DEFAULT_BLOCK_SIZE,
      showavg := true, tests := setAt (setAt (fun _ => false) 0 true) 1 true, quiet := false,
      cpu_pinstr := none }
    rfl
    (by decide)
    (Or.inl ⟨rfl, by
      rw [exactlyOneTest_iff]
      decide⟩)

/-! ## Theorems: the driver `mbw-gen` -/

theorem digitChar_spec (d : Nat) (hd : d < 10) :
    (Nat.digitChar d).isDigit = true ∧
      ((Nat.digitChar d).toNat : Int) - ('0'.toNat : Int) = (d : Int) := by
  interval_cases d <;> decide

theorem toDigitsCore_append (b : Nat) :
    ∀ (fuel n : Nat) (ds : List Char),
      Nat.toDigitsCore b fuel n ds = Nat.toDigitsCore b fuel n [] ++ ds := by
  intro fuel
  induction fuel with
  | zero => intro n ds; simp [Nat.toDigitsCore]
  | succ f ih =>
    intro n ds
    simp only [Nat.toDigitsCore]
    split
    · simp
    · rw [ih (n / b) (Nat.digitChar (n % b) :: ds), ih (n / b) [Nat.digitChar (n % b)]]
      simp

theorem readDigits_digitChar (d : Nat) (hd : d < 10) (t : Int) (p : List Char)
    (hmax : t * 10 + (d : Int) ≤ INT_MAX) :
    readDigits t (Nat.digitChar d :: p) = readDigits (t * 10 + (d : Int)) p := by
  have h := digitChar_spec d hd
  rw [readDigits, if_pos h.1, h.2, if_pos hmax]

/-- Reading back the decimal digits of `n` gives `n`, when `n` is an `int`. -/
theorem readDigits_toDigitsCore :
    ∀ (fuel n : Nat), n < fuel → (n : Int) ≤ INT_MAX → ∀ rest : List Char,
      readDigits 0 (Nat.toDigitsCore 10 fuel n [] ++ rest) = readDigits (n : Int) rest := by
  intro fuel
  induction fuel with
  | zero => intro n h; omega
  | succ f ih =>
    intro n hn hmax rest
    have hlt : n % 10 < 10 := Nat.mod_lt _ (by decide)
    simp only [Nat.toDigitsCore]
    split
    · have h0 : (0 : Int) * 10 + ((n % 10 : Nat) : Int) = (n : Int) := by omega
      rw [List.singleton_append, readDigits_digitChar _ hlt _ _ (by rw [h0]; exact hmax), h0]
    · have h1 : ((n / 10 : Nat) : Int) * 10 + ((n % 10 : Nat) : Int) = (n : Int) := by omega
      rw [toDigitsCore_append, List.append_assoc, List.singleton_append,
        ih (n / 10) (by omega) (by unfold INT_MAX at *; omega) _,
        readDigits_digitChar _ hlt _ _ (by rw [h1]; exact hmax), h1]

theorem readDigits_printDec (n : Nat) (hmax : (n : Int) ≤ INT_MAX) (rest : List Char) :
    readDigits 0 (printDec (n : Int) ++ rest) = readDigits (n : Int) rest := by
  have h : ¬ ((n : Int) < 0) := by omega
  simp only [printDec, h, if_false, Int.toNat_ofNat, Nat.toDigits]
  exact readDigits_toDigitsCore (n + 1) n (Nat.lt_succ_self n) hmax rest

theorem readDigits_colon (t : Int) (p : List Char) :
    readDigits t (':' :: p) = some (t, ':' :: p) := by
  have h : ¬ (':'.isDigit = true) := by decide
  rw [readDigits, if_neg h]

theorem printDec_ne_nil (n : Nat) : printDec (n : Int) ≠ [] := by
  have h : ¬ ((n : Int) < 0) := by omega
  simp only [printDec, h, if_false, Int.toNat_ofNat, Nat.toDigits, Nat.toDigitsCore]
  split
  · simp
  · rw [toDigitsCore_append]
    simp

/-- One evaluation of the loop body of `parse_cpu_affinity_str` on a non-empty rest. -/
theorem parseLoop_succ (fuel : Nat) (p : List Char) (hp : p ≠ []) (start end_ step : Int)
    (pins : List Int) :
    parseLoop (fuel + 1) p start end_ step pins
      = match readDigits 0 p with
        | none => none
        | some (t, []) =>
          match assignNumber start end_ step t with
          | none => some (pins, -1)
          | some (s1, e1, st1) =>
            match writePins s1 e1 st1 pins with
            | none => none
            | some pins1 => some (pins1, (pins1.length : Int))
        | some (t, d :: p1) =>
          if d = ':' then
            match assignNumber start end_ step t with
            | none => some (pins, -1)
            | some (s1, e1, st1) => parseLoop fuel p1 s1 e1 st1 pins
          else if d = ',' then
            match assignNumber start end_ step t with
            | none => some (pins, -1)
            | some (s1, e1, st1) =>
              match writePins s1 e1 st1 pins with
              | none => none
              | some pins1 => parseLoop fuel p1 (-1) (-1) (-1) pins1
          else some (pins, -1) := by
  cases p with
  | nil => exact absurd rfl hp
  | cons c cs => rw [parseLoop]

/-- The string `0:s:e` parses to the pins of the strided range from 0 to `e` by `s`. -/
theorem parse_strided (s e : Nat) (hs : (s : Int) ≤ INT_MAX) (he : (e : Int) ≤ INT_MAX) :
    parse_cpu_affinity_str ('0' :: ':' :: (printDec (s : Int) ++ ':' :: printDec (e : Int)))
      = match writePins 0 e s [] with
        | none => none
        | some pins => some (pins, (pins.length : Int)) := by
  unfold parse_cpu_affinity_str
  have hlen : ∃ n, ('0' :: ':' :: (printDec (s : Int) ++ ':' :: printDec (e : Int))).length + 1
      = n + 3 := by
    have h1 := List.length_pos.mpr (printDec_ne_nil s)
    refine ⟨(printDec (s : Int)).length + (printDec (e : Int)).length + 1, ?_⟩
    simp only [List.length_cons, List.length_append]
    omega
  obtain ⟨n, hn⟩ := hlen
  rw [hn]
  have h0 : readDigits 0 ('0' :: ':' :: (printDec (s : Int) ++ ':' :: printDec (e : Int)))
      = some (0, ':' :: (printDec (s : Int) ++ ':' :: printDec (e : Int))) := by
    have := readDigits_digitChar 0 (by decide) 0
      (':' :: (printDec (s : Int) ++ ':' :: printDec (e : Int))) (by decide)
    rw [show Nat.digitChar 0 = '0' from rfl] at this
    rw [this, readDigits_colon]
    simp
  rw [parseLoop_succ _ _ (by simp), h0]
  simp only [if_true, assignNumber]
  rw [parseLoop_succ _ _ (by simp), readDigits_printDec s hs, readDigits_colon]
  have hz : ¬ ((0 : Int) = -1) := by decide
  simp only [if_true, assignNumber, hz, if_false]
  rw [parseLoop_succ _ _ (printDec_ne_nil e)]
  have hre := readDigits_printDec e he []
  rw [List.append_nil] at hre
  rw [hre]
  have hs1 : ¬ ((s : Int) = -1) := by omega
  simp [readDigits, assignNumber, hs1]

/-- The loop of lines 232-233 on the strided range that ends just below `nproc * step`, when
the `nproc` pins fit into the table. -/
theorem pinLoop_strided (nproc step : Nat) (hstep : 1 ≤ step) (hfit : nproc < PROCMAP_SIZE)
    (hmax : ((nproc * step : Nat) : Int) ≤ INT_MAX) :
    ∀ (fuel k : Nat) (pins : List Int), pins.length = k → k ≤ nproc → nproc - k ≤ fuel →
      pinLoop (((nproc * step : Nat) : Int) - 1) (step : Int) fuel ((k * step : Nat) : Int) pins
        = some (pins ++ (List.range' k (nproc - k)).map fun j => ((j * step : Nat) : Int)) := by
  intro fuel
  induction fuel with
  | zero =>
    intro k pins _ hk hf
    have h0 : nproc - k = 0 := by omega
    simp [pinLoop, h0]
  | succ f ih =>
    intro k pins hlen hk hf
    unfold pinLoop
    by_cases hlt : k < nproc
    · have hmul : (k + 1) * step ≤ nproc * step := Nat.mul_le_mul_right step hlt
      have hexp : (k + 1) * step = k * step + step := by ring
      have hc : ((k * step : Nat) : Int) ≤ ((nproc * step : Nat) : Int) - 1 := by omega
      have hnext : ((k * step : Nat) : Int) + (step : Int) = (((k + 1) * step : Nat) : Int) := by
        rw [hexp]
        push_cast
        ring
      have hb : pins.length + 1 < PROCMAP_SIZE ∧
          ((k * step : Nat) : Int) + (step : Int) ≤ INT_MAX := by
        constructor
        · omega
        · rw [hnext]
          omega
      have hsplit : nproc - k = (nproc - (k + 1)) + 1 := by omega
      rw [if_pos hc, if_pos hb, hnext,
        ih (k + 1) _ (by simp [hlen]) (by omega) (by omega), hsplit, List.range'_succ]
      simp
    · have hkn : k = nproc := by omega
      have hc : ¬ (((k * step : Nat) : Int) ≤ ((nproc * step : Nat) : Int) - 1) := by
        rw [hkn]
        omega
      have h0 : nproc - k = 0 := by omega
      rw [if_neg hc, h0]
      simp

/-- The loop of lines 232-233 on the strided range that ends just below `nproc * step`, when
the `nproc` pins do not fit into the table: a pin is written beyond it. -/
theorem pinLoop_overflow (nproc step : Nat) (hstep : 1 ≤ step) (hbig : PROCMAP_SIZE ≤ nproc) :
    ∀ (fuel k : Nat) (pins : List Int), pins.length = k → k < PROCMAP_SIZE →
      PROCMAP_SIZE - k ≤ fuel →
      pinLoop (((nproc * step : Nat) : Int) - 1) (step : Int) fuel ((k * step : Nat) : Int) pins
        = none := by
  intro fuel
  induction fuel with
  | zero =>
    intro k pins _ hk hf
    omega
  | succ f ih =>
    intro k pins hlen hk hf
    unfold pinLoop
    have hlt : k < nproc := by omega
    have hmul : (k + 1) * step ≤ nproc * step := Nat.mul_le_mul_right step hlt
    have hexp : (k + 1) * step = k * step + step := by ring
    have hc : ((k * step : Nat) : Int) ≤ ((nproc * step : Nat) : Int) - 1 := by omega
    have hnext : ((k * step : Nat) : Int) + (step : Int) = (((k + 1) * step : Nat) : Int) := by
      rw [hexp]
      push_cast
      ring
    rw [if_pos hc]
    split
    · rename_i hb
      rw [hnext]
      exact ih (k + 1) _ (by simp [hlen]) (by omega) (by omega)
    · rfl

/-- The pins `writePins` produces for `0:step:(nproc*step-1)` are `0, step, .., (nproc-1)*step`
when they fit into the table; otherwise the call has no defined result. -/
theorem writePins_strided (nproc step : Nat) (hstep : 1 ≤ step)
    (hmax : ((nproc * step : Nat) : Int) ≤ INT_MAX) :
    writePins 0 (((nproc * step : Nat) : Int) - 1) (step : Int) []
      = if nproc < PROCMAP_SIZE then
          some ((List.range nproc).map fun j => ((j * step : Nat) : Int))
        else none := by
  have hs : (step : Int) ≥ 1 := by omega
  have hle : nproc ≤ nproc * step := Nat.le_mul_of_pos_right nproc hstep
  by_cases hfit : nproc < PROCMAP_SIZE
  · have h := pinLoop_strided nproc step hstep hfit hmax
      (((nproc * step : Nat) : Int) - 1 + 1 - 0).toNat 0 [] rfl (Nat.zero_le _) (by omega)
    simp only [Nat.zero_mul, Nat.cast_zero, Nat.sub_zero, List.nil_append] at h
    rw [writePins, if_pos hs, h, if_pos hfit, List.range_eq_range']
  · have h := pinLoop_overflow nproc step hstep (by omega)
      (((nproc * step : Nat) : Int) - 1 + 1 - 0).toNat 0 [] rfl (by decide) (by omega)
    simp only [Nat.zero_mul, Nat.cast_zero] at h
    rw [writePins, if_pos hs, h, if_neg hfit]

theorem toInt32_of_lt (n : Nat) (h : n < 2 ^ 31) : toInt32 n = (n : Int) := by
  have h1 : n % 2 ^ 32 = n := Nat.mod_eq_of_lt (by omega)
  rw [toInt32, h1, if_pos h]

/-- The affinity string of the command `execute nproc step` resolves to
`stridedPins nproc step` when the `nproc` pins fit into the table, and has no defined result
otherwise. -/
theorem execute_parse (nproc step : Nat) (h1 : 1 ≤ nproc) (h2 : 1 ≤ step)
    (h31 : nproc * step < 2 ^ 31) :
    parse_cpu_affinity_str (execute nproc step).affinity
      = if nproc < PROCMAP_SIZE then some (stridedPins nproc step, (nproc : Int)) else none := by
  have hpos : 1 ≤ nproc * step := Nat.mul_pos h1 h2
  have hle : step ≤ nproc * step := Nat.le_mul_of_pos_left step h1
  have he : ((nproc * step : Nat) : Int) - 1 = ((nproc * step - 1 : Nat) : Int) := by omega
  have hmax : ((nproc * step : Nat) : Int) ≤ INT_MAX := by
    unfold INT_MAX
    omega
  simp only [execute]
  rw [he, parse_strided _ _ (by unfold INT_MAX; omega) (by unfold INT_MAX; omega), ← he,
    writePins_strided nproc step h2 hmax]
  by_cases hfit : nproc < PROCMAP_SIZE
  · simp [hfit, stridedPins]
  · simp [hfit]

theorem getoptLoop_execute (nproc step : Nat) :
    getoptLoop (execute nproc step).opts Vars.init
      = Pre.ok { nr_procs := toInt32 nproc, nr_repeats := toInt32 20, nr_loops := toInt32 10,
                 block_size := DEFAULT_BLOCK_SIZE, showavg := true, tests := fun _ => false,
                 quiet := true, cpu_pinstr := some (execute nproc step).affinity } := by
  simp [Cmd.opts, getoptLoop, optStep, Vars.init, execute]

/-- What `mbw` does with the command `execute nproc step` when the pins fit into the table:
the affinity string resolves to `stridedPins nproc step`, the count check passes, and so do the
remaining checks. -/
theorem execute_accepted (nproc step : Nat) (h1 : 1 ≤ nproc) (h2 : 1 ≤ step)
    (h31 : nproc * step < 2 ^ 31) (hfit : nproc < PROCMAP_SIZE) :
    parse_cpu_affinity_str (execute nproc step).affinity
        = some (stridedPins nproc step, (nproc : Int)) ∧
      resolveAffinity (toInt32 (execute nproc step).nproc) (some (execute nproc step).affinity)
        = Pre.ok (stridedPins nproc step) ∧
      ∃ cfg, main_pre (execute nproc step).opts (some 1024) = Pre.ok cfg ∧
        cfg.nr_procs = (nproc : Int) ∧ cfg.cpu_pinno = stridedPins nproc step := by
  have hle : nproc ≤ nproc * step := Nat.le_mul_of_pos_right nproc h2
  have hn31 : nproc < 2 ^ 31 := by omega
  have hparse : parse_cpu_affinity_str (execute nproc step).affinity
      = some (stridedPins nproc step, (nproc : Int)) := by
    rw [execute_parse nproc step h1 h2 h31, if_pos hfit]
  have hres : resolveAffinity (toInt32 (execute nproc step).nproc)
      (some (execute nproc step).affinity) = Pre.ok (stridedPins nproc step) := by
    rw [resolveAffinity, hparse]
    simp [execute, toInt32_of_lt nproc hn31]
  refine ⟨hparse, hres, ?_⟩
  have hres1 : resolveAffinity (toInt32 nproc) (some (execute nproc step).affinity)
      = Pre.ok (stridedPins nproc step) := hres
  simp only [main_pre, getoptLoop_execute, hres1]
  have hl : ¬ (toInt32 10 = 0 ∧ testsSum (defaultTests fun _ => false) ≠ 1) := by decide
  have ha : asizeOf 1024 = some 134217728 := by decide
  have hb : ¬ (arrayBytes 134217728 < DEFAULT_BLOCK_SIZE) := by decide
  have hck : checkConfig
      { nr_procs := toInt32 nproc, nr_repeats := toInt32 20, nr_loops := toInt32 10,
        block_size := DEFAULT_BLOCK_SIZE, showavg := true, tests := fun _ => false,
        quiet := true, cpu_pinstr := some (execute nproc step).affinity }
      (stridedPins nproc step) (some 1024)
      = Pre.ok
        { nr_procs := toInt32 nproc, nr_repeats := toInt32 20, nr_loops := toInt32 10,
          block_size := DEFAULT_BLOCK_SIZE, showavg := true,
          tests := defaultTests fun _ => false, quiet := true,
          cpu_pinno := stridedPins nproc step, mt := 1024, asize := 134217728 } := by
    simp only [checkConfig, hl, if_false, ha, hb]
    simp
  rw [hck]
  exact ⟨_, rfl, toInt32_of_lt nproc hn31, rfl⟩

/-- What `mbw` does with the command `execute nproc step` when the pins do not fit into the
table: `parse_cpu_affinity_str` writes beyond `cpu_pinno`, and the part of `main` before the
forks has no defined result. -/
theorem execute_undefined (nproc step : Nat) (h2 : 1 ≤ step) (h31 : nproc * step < 2 ^ 31)
    (hbig : PROCMAP_SIZE ≤ nproc) :
    parse_cpu_affinity_str (execute nproc step).affinity = none ∧
      resolveAffinity (toInt32 (execute nproc step).nproc) (some (execute nproc step).affinity)
        = Pre.undefined ∧
      main_pre (execute nproc step).opts (some 1024) = Pre.undefined := by
  have h1 : 1 ≤ nproc := by
    have : 0 < PROCMAP_SIZE := by decide
    omega
  have hparse : parse_cpu_affinity_str (execute nproc step).affinity = none := by
    rw [execute_parse nproc step h1 h2 h31, if_neg (by omega)]
  have hres : ∀ n, resolveAffinity n (some (execute nproc step).affinity) = Pre.undefined := by
    intro n
    rw [resolveAffinity, hparse]
  refine ⟨hparse, hres _, ?_⟩
  simp only [main_pre, getoptLoop_execute, hres]

/-- The fuel `genBody2` gives to the doubling loop is enough: from `j >= 1` the loop ends by
its own test, and more fuel changes nothing. -/
theorem doubleLoop_fuel (i im : Nat) :
    ∀ (fuel j : Nat) (out : List Cmd), 1 ≤ j → im + 1 - j ≤ fuel →
      ∀ extra, doubleLoop i im (fuel + extra) j out = doubleLoop i im fuel j out := by
  intro fuel
  induction fuel with
  | zero =>
    intro j out _ h extra
    have hj : ¬ j ≤ im := by omega
    cases extra with
    | zero => rfl
    | succ e =>
      rw [Nat.zero_add]
      unfold doubleLoop
      rw [if_neg hj]
  | succ n ih =>
    intro j out hj h extra
    have he : n + 1 + extra = (n + extra) + 1 := by omega
    rw [he]
    unfold doubleLoop
    split
    · exact ih _ _ (by omega) (by omega) extra
    · rfl

/-- The fuel `gen_main` gives to the first loop is enough. -/
theorem genLoop1_fuel (N : Nat) :
    ∀ (fuel im : Nat) (st : GenState), 1 ≤ im → N + 1 - im ≤ fuel →
      ∀ extra, genLoop1 N (fuel + extra) im st = genLoop1 N fuel im st := by
  intro fuel
  induction fuel with
  | zero =>
    intro im st him h extra
    have hle : im ≤ im * im := Nat.le_mul_self im
    have hc : ¬ im * im ≤ N := by omega
    cases extra with
    | zero => rfl
    | succ e =>
      rw [Nat.zero_add]
      unfold genLoop1
      rw [if_neg hc]
  | succ n ih =>
    intro im st him h extra
    have he : n + 1 + extra = (n + extra) + 1 := by omega
    rw [he]
    unfold genLoop1
    split
    · exact ih _ _ (by omega) (by omega) extra
    · rfl

theorem foldl_inv {σ β : Type} (P : σ → Prop) (f : σ → β → σ) (l : List β) :
    ∀ s, P s → (∀ s x, x ∈ l → P s → P (f s x)) → P (l.foldl f s) := by
  induction l with
  | nil => intro s hs _; exact hs
  | cons a t ih =>
    intro s hs hstep
    exact ih _ (hstep s a (List.mem_cons_self a t) hs)
      (fun s x hx => hstep s x (List.mem_cons_of_mem a hx))

theorem emittedForm_execute (N nproc step : Nat) (h1 : 1 ≤ nproc) (h2 : 1 ≤ step)
    (h3 : nproc * step ≤ N) : emittedForm N (execute nproc step) :=
  ⟨nproc, step, rfl, h1, h2, h3⟩

theorem div_mul_le_of_le (N im j : Nat) (hj : j ≤ im) : N / im * j ≤ N :=
  Nat.le_trans (Nat.mul_le_mul_left _ hj) (Nat.div_mul_le_self N im)

theorem genBody1_inv (N im : Nat) (st : GenState) (h1 : 1 ≤ im) (h2 : im ≤ N)
    (h : ∀ c ∈ st.1, emittedForm N c) : ∀ c ∈ (genBody1 N st im).1, emittedForm N c := by
  unfold genBody1
  split
  · exact h
  · intro c hc
    simp only [List.mem_append, List.mem_map, List.mem_range] at hc
    rcases hc with hc | ⟨j, hj, rfl⟩
    · exact h c hc
    · exact emittedForm_execute N _ _ (Nat.div_pos h2 h1) (by omega)
        (div_mul_le_of_le N im (j + 1) hj)

theorem genLoop1_inv (N : Nat) :
    ∀ (fuel im : Nat) (st : GenState), 1 ≤ im → (∀ c ∈ st.1, emittedForm N c) →
      1 ≤ (genLoop1 N fuel im st).1 ∧ ∀ c ∈ (genLoop1 N fuel im st).2.1, emittedForm N c := by
  intro fuel
  induction fuel with
  | zero => intro im st him h; exact ⟨him, h⟩
  | succ n ih =>
    intro im st him h
    unfold genLoop1
    split
    · rename_i hc
      have hle : im ≤ im * im := Nat.le_mul_self im
      exact ih (im + 1) _ (by omega) (genBody1_inv N im st him (by omega) h)
    · exact ⟨him, h⟩

theorem doubleLoop_inv (N im : Nat) (him : 1 ≤ im) (himN : im ≤ N) :
    ∀ (fuel j : Nat) (out : List Cmd), 1 ≤ j → (∀ c ∈ out, emittedForm N c) →
      ∀ c ∈ doubleLoop (N / im) im fuel j out, emittedForm N c := by
  intro fuel
  induction fuel with
  | zero => intro j out _ h; exact h
  | succ n ih =>
    intro j out hj h
    unfold doubleLoop
    split
    · rename_i hle
      apply ih (j * 2) _ (by omega)
      intro c hc
      simp only [List.mem_append, List.mem_singleton] at hc
      rcases hc with hc | rfl
      · exact h c hc
      · exact emittedForm_execute N _ _ (Nat.div_pos himN him) hj (div_mul_le_of_le N im j hle)
    · exact h

theorem genBody2_inv (N im : Nat) (st : GenState) (h1 : 1 ≤ im) (h2 : im ≤ N)
    (h : ∀ c ∈ st.1, emittedForm N c) : ∀ c ∈ (genBody2 N st im).1, emittedForm N c := by
  unfold genBody2
  split
  · exact h
  · exact doubleLoop_inv N im h1 h2 im 1 st.1 (le_refl 1) h

theorem genBody3_inv (N i : Nat) (map : Nat → Bool) (out : List Cmd) (h1 : 1 ≤ i) (h2 : i ≤ N)
    (h : ∀ c ∈ out, emittedForm N c) : ∀ c ∈ genBody3 map out i, emittedForm N c := by
  unfold genBody3
  split
  · exact h
  · intro c hc
    simp only [List.mem_append, List.mem_singleton] at hc
    rcases hc with hc | rfl
    · exact h c hc
    · exact emittedForm_execute N i 1 h1 (le_refl 1) (by omega)

/-- Every command the driver prints has the form `-p nproc -f 0:step:(nproc*step-1)` with
`nproc >= 1`, `step >= 1` and `nproc * step <= N`. -/
theorem gen_main_emittedForm (N : Nat) : ∀ c ∈ gen_main N, emittedForm N c := by
  have h1 := genLoop1_inv N N 1 ([], fun _ => false) (le_refl 1)
    (fun c hc => absurd hc (List.not_mem_nil c))
  have h2 : ∀ c ∈ ((List.range' (genLoop1 N N 1 ([], fun _ => false)).1
      (N - (genLoop1 N N 1 ([], fun _ => false)).1)).foldl (genBody2 N)
      (genLoop1 N N 1 ([], fun _ => false)).2).1, emittedForm N c := by
    apply foldl_inv (fun st : GenState => ∀ c ∈ st.1, emittedForm N c)
    · exact h1.2
    · intro st im him hst
      have hb := List.mem_range'_1.mp him
      exact genBody2_inv N im st (by omega) (by omega) hst
  unfold gen_main
  apply foldl_inv (fun out : List Cmd => ∀ c ∈ out, emittedForm N c)
  · exact h2
  · intro out i hi hout
    have hb := List.mem_range'_1.mp (List.mem_reverse.mp hi)
    exact genBody3_inv N i _ out (by omega) (by omega) hout

theorem stridedPins_bound (N nproc step : Nat) (h2 : 1 ≤ step) (h3 : nproc * step ≤ N) :
    ∀ x ∈ stridedPins nproc step, 0 ≤ x ∧ x < (N : Int) := by
  intro x hx
  simp only [stridedPins, List.mem_map, List.mem_range] at hx
  obtain ⟨k, hk, rfl⟩ := hx
  have hmul : (k + 1) * step ≤ nproc * step := Nat.mul_le_mul_right step hk
  have hexp : (k + 1) * step = k * step + step := by ring
  constructor
  · exact Int.natCast_nonneg _
  · have : k * step < N := by omega
    exact_mod_cast this

theorem genLoop1_mono (N : Nat) (c : Cmd) :
    ∀ (fuel im : Nat) (st : GenState), c ∈ st.1 → c ∈ (genLoop1 N fuel im st).2.1 := by
  intro fuel
  induction fuel with
  | zero => intro im st h; exact h
  | succ n ih =>
    intro im st h
    unfold genLoop1
    split
    · apply ih
      unfold genBody1
      split
      · exact h
      · exact List.mem_append_left _ h
    · exact h

theorem doubleLoop_mono (i im : Nat) (c : Cmd) :
    ∀ (fuel j : Nat) (out : List Cmd), c ∈ out → c ∈ doubleLoop i im fuel j out := by
  intro fuel
  induction fuel with
  | zero => intro j out h; exact h
  | succ n ih =>
    intro j out h
    unfold doubleLoop
    split
    · exact ih _ _ (List.mem_append_left _ h)
    · exact h

/-- The first command the driver prints for `N >= 1` CPUs is `-p N -f 0:1:(N-1)`; it stays
in the output. -/
theorem first_command_mem (N : Nat) (hN : 1 ≤ N) : execute N 1 ∈ gen_main N := by
  have h1 : execute N 1 ∈ (genLoop1 N N 1 ([], fun _ => false)).2.1 := by
    obtain ⟨n, rfl⟩ : ∃ n, N = n + 1 := ⟨N - 1, by omega⟩
    unfold genLoop1
    rw [if_pos (by omega)]
    apply genLoop1_mono
    simp [genBody1, Nat.mod_one]
  have h2 : execute N 1 ∈ ((List.range' (genLoop1 N N 1 ([], fun _ => false)).1
      (N - (genLoop1 N N 1 ([], fun _ => false)).1)).foldl (genBody2 N)
      (genLoop1 N N 1 ([], fun _ => false)).2).1 := by
    apply foldl_inv (fun st : GenState => execute N 1 ∈ st.1)
    · exact h1
    · intro st im _ hst
      unfold genBody2
      split
      · exact hst
      · exact doubleLoop_mono _ _ _ _ _ _ hst
  unfold gen_main
  apply foldl_inv (fun out : List Cmd => execute N 1 ∈ out)
  · exact h2
  · intro out i _ hout
    unfold genBody3
    split
    · exact hout
    · exact List.mem_append_left _ hout

/-- C11 (counterexample). For 4096 CPUs the driver prints the command
`-p 4096 -f 0:1:4095`. Its affinity string resolves to 4096 pins, which
`parse_cpu_affinity_str` writes into the slots `1..4096` of `int cpu_pinno[4096]`: the last
write is beyond the table, the call has no defined result, and neither has the part of `main`
of `mbw` before the forks; the command is not accepted. -/
theorem gen_command_overflows :
    execute 4096 1 ∈ gen_main 4096 ∧
      parse_cpu_affinity_str (execute 4096 1).affinity = none ∧
      resolveAffinity (toInt32 (execute 4096 1).nproc) (some (execute 4096 1).affinity)
        = Pre.undefined ∧
      main_pre (execute 4096 1).opts (some 1024) = Pre.undefined :=
  ⟨first_command_mem 4096 (by decide), execute_undefined 4096 1 (by decide) (by decide)
    (by decide)⟩

/-- C11 (amended). Generator/parser agreement: for every `N < PROCMAP_SIZE` (4096), every
command the driver `mbw-gen` prints for `N` CPUs has the form
`-p nproc -f 0:step:(nproc*step-1)` with `nproc >= 1`, `step >= 1` and `nproc * step <= N`;
`parse_cpu_affinity_str` resolves its affinity string to exactly the `nproc` indices
`0, step, .., (nproc-1)*step`, all below `N`, and returns `nproc`; so the affinity-count check
of `mbw` does not reject the command, and `mbw` reaches the forks with these pins. -/
theorem gen_commands_accepted (N : Nat) (hfit : N < PROCMAP_SIZE) (c : Cmd)
    (hc : c ∈ gen_main N) :
    ∃ nproc step, c = execute nproc step ∧ 1 ≤ nproc ∧ 1 ≤ step ∧ nproc * step ≤ N ∧
      parse_cpu_affinity_str c.affinity = some (stridedPins nproc step, (nproc : Int)) ∧
      (stridedPins nproc step).length = nproc ∧
      (∀ x ∈ stridedPins nproc step, 0 ≤ x ∧ x < (N : Int)) ∧
      resolveAffinity (toInt32 c.nproc) (some c.affinity) = Pre.ok (stridedPins nproc step) ∧
      ∃ cfg, main_pre c.opts (some 1024) = Pre.ok cfg ∧ cfg.nr_procs = (nproc : Int) ∧
        cfg.cpu_pinno = stridedPins nproc step := by
  obtain ⟨nproc, step, rfl, h1, h2, h3⟩ := gen_main_emittedForm N c hc
  have hle : nproc ≤ nproc * step := Nat.le_mul_of_pos_right nproc h2
  have hP : PROCMAP_SIZE = 4096 := rfl
  obtain ⟨hp, hr, hm⟩ := execute_accepted nproc step h1 h2 (by omega) (by omega)
  have hlen : (stridedPins nproc step).length = nproc := by simp [stridedPins]
  exact ⟨nproc, step, rfl, h1, h2, h3, hp, hlen, stridedPins_bound N nproc step h2 h3, hr, hm⟩

/-- Witness for C11 (amended): for four CPUs the driver prints the command `-p 4 -f 0:1:3`,
among others. -/
theorem gen_commands_accepted_witness :
    execute 4 1 ∈ gen_main 4 ∧
      ∃ nproc step, execute 4 1 = execute nproc step ∧ 1 ≤ nproc ∧ 1 ≤ step ∧ nproc * step ≤ 4 ∧
        parse_cpu_affinity_str (execute 4 1).affinity
          = some (stridedPins nproc step, (nproc : Int)) ∧
        (stridedPins nproc step).length = nproc ∧
        (∀ x ∈ stridedPins nproc step, 0 ≤ x ∧ x < ((4 : Nat) : Int)) ∧
        resolveAffinity (toInt32 (execute 4 1).nproc) (some (execute 4 1).affinity)
          = Pre.ok (stridedPins nproc step) ∧
        ∃ cfg, main_pre (execute 4 1).opts (some 1024) = Pre.ok cfg ∧
          cfg.nr_procs = (nproc : Int) ∧ cfg.cpu_pinno = stridedPins nproc step :=
  ⟨by decide, gen_commands_accepted 4 (by decide) (execute 4 1) (by decide)⟩

/-- The commands printed for four CPUs, and what `mbw` resolves three of them to. -/
theorem gen_main_four :
    (gen_main 4).map (fun c => (c.nproc, String.mk c.affinity))
        = [(4, "0:1:3"), (2, "0:1:1"), (2, "0:2:3"), (3, "0:1:2"), (1, "0:1:0")] ∧
      parse_cpu_affinity_str "0:1:3".toList = some ([0, 1, 2, 3], 4) ∧
      parse_cpu_affinity_str "0:2:3".toList = some ([0, 2], 2) ∧
      parse_cpu_affinity_str "0:1:0".toList = some ([0], 1) := by
  refine ⟨by decide, by decide, by decide, by decide⟩

end Mbw
